import Mathlib

/-!
# ascii-cli: image to ASCII rendering (`main.go`)

A shallow embedding of `clamp`, `toASCII`, `writeOutput`, `stripANSI` and the
animation timing and display loop of `main` from `main.go`, and theorems about
them.

## Modelling conventions

* Go `int` is modelled by `ℤ`.  Loop counters and image extents stay far from
  the 64-bit range; the one place where the range is visible is the
  conversion `int(f)` of a `float64`, see `f64ToInt`.
* Go `float64` values are modelled by the rational number they denote.  Every
  arithmetic operation of the source is followed by `f64`, rounding to the
  nearest binary64 value (53 significant bits, ties to even), each operation
  rounded on its own (no fused multiply-add), which is what the gc compiler
  emits for amd64.  The exponent range is not modelled: with 64-bit integer
  inputs no intermediate value of this program leaves the normal range.
  Infinities can only arise for `xStep` when `targetWidth = 0`, and then the
  loop body that would read `xStep` never runs.
* The source evaluates `x * (w / targetWidth)`, `0.299 R + 0.587 G + 0.114 B`
  and `(gray / 255) * 9` in `float64`.  Because every operation rounds, the
  results need not agree with the same formulas over exact numbers, which are
  `specSrcCoord` and `specRampIndex`; `srcCoord_vs_exact` and
  `rampIndex_vs_exact` state how far the two can differ.
* Go `string` is a sequence of bytes, modelled by `List UInt8`.
* A run-time panic (index out of range, division by zero) is modelled by `none`.
* `time.Duration` is a count of nanoseconds, modelled by `ℤ`.
* `writeOutput` is modelled by the text it assembles and the animation loop of
  `main` by its iterations; writing, printing and sleeping are not modelled.
-/

namespace AsciiCli

/-! ## binary64 rounding -/

/-- Fuelled helper of `natLog2`: number of halvings until the argument drops below 2. -/
def log2Aux : ℕ → ℕ → ℕ
  | 0, _ => 0
  | fuel + 1, n => if 2 ≤ n then log2Aux fuel (n / 2) + 1 else 0

/-- Position of the leading bit of `n`, that is `⌊log₂ n⌋` for `n ≠ 0`. -/
def natLog2 (n : ℕ) : ℕ := log2Aux n n

/-- Binary exponent of a non-zero rational: the `e` with `2^e ≤ |q| < 2^(e+1)`. -/
def binExp (q : ℚ) : ℤ :=
  let k : ℤ := (natLog2 q.num.natAbs : ℤ) - (natLog2 q.den : ℤ)
  if (2 : ℚ) ^ k ≤ |q| then k else k - 1

/-- Round a rational to the nearest integer, ties to the even neighbour. -/
def roundHalfEven (q : ℚ) : ℤ :=
  let f := ⌊q⌋
  let r := q - f
  if r < 1 / 2 then f else if 1 / 2 < r then f + 1 else if f % 2 = 0 then f else f + 1

/-- Unit in the last place of the binade of `q`: `2^(e-52)` where `e = binExp q`. -/
def ulp (q : ℚ) : ℚ := (2 : ℚ) ^ (binExp q - 52)

/-- Round to the nearest binary64 value (round-to-nearest, ties-to-even). -/
def f64 (q : ℚ) : ℚ :=
  if q = 0 then 0 else (roundHalfEven (q / ulp q) : ℚ) * ulp q

/-- Go `float64(n)` for an integer `n`. -/
def f64ofInt (n : ℤ) : ℚ := f64 (n : ℚ)

/-- Go `a + b` on `float64`. -/
def f64add (a b : ℚ) : ℚ := f64 (a + b)

/-- Go `a * b` on `float64`. -/
def f64mul (a b : ℚ) : ℚ := f64 (a * b)

/-- Go `a / b` on `float64` (for `b ≠ 0`). -/
def f64div (a b : ℚ) : ℚ := f64 (a / b)

/-- Truncation toward zero. -/
def truncQ (q : ℚ) : ℤ := if 0 ≤ q then ⌊q⌋ else ⌈q⌉

/-- Go `int(f)` for a `float64` value `f`: the fractional part is discarded.
When the truncated value does not fit in 64 bits the Go specification leaves
the result to the implementation; `ovf` is that implementation-chosen result
and every theorem below holds for all choices of `ovf`. -/
def f64ToInt (ovf : ℚ → ℤ) (q : ℚ) : ℤ :=
  let t := truncQ q
  if -(2 : ℤ) ^ 63 ≤ t ∧ t < (2 : ℤ) ^ 63 then t else ovf q

/-! ## `clamp` and the constants -/

/-- Source `clamp`: `v` limited to the interval `[lo, hi]`. -/
def clamp {T : Type} [LinearOrder T] (v lo hi : T) : T :=
  if v < lo then lo else if v > hi then hi else v

/-- Source constant `grayRamp = " .:-=+*#%@"`, as bytes. -/
def grayRamp : List UInt8 := [0x20, 0x2e, 0x3a, 0x2d, 0x3d, 0x2b, 0x2a, 0x23, 0x25, 0x40]

/-- The ESC byte `0x1b` (written `\033` in the source). -/
def ESC : UInt8 := 0x1b

/-! ## Images -/

/-- Go `image.Point`. -/
structure Point where
  X : ℤ
  Y : ℤ

/-- Go `image.Rectangle`. -/
structure Rectangle where
  Min : Point
  Max : Point

/-- Go `Rectangle.Dx`: the width. -/
def Rectangle.Dx (r : Rectangle) : ℤ := r.Max.X - r.Min.X

/-- Go `Rectangle.Dy`: the height. -/
def Rectangle.Dy (r : Rectangle) : ℤ := r.Max.Y - r.Min.Y

/-- Result of `Color.RGBA()`: four `uint32` channels. -/
structure RGBA where
  r : ℕ
  g : ℕ
  b : ℕ
  a : ℕ

/-- Go `image.Image`: bounds and the colour at each point (`At(x, y).RGBA()`). -/
structure Image where
  Bounds : Rectangle
  At : ℤ → ℤ → RGBA

/-- Go `uint8(v)`: the low eight bits. -/
def uint8 (v : ℕ) : ℕ := v % 256

/-! ## `toASCII` -/

/-- The `float64` constant `0.299`. -/
def c299 : ℚ := f64 (299 / 1000)

/-- The `float64` constant `0.587`. -/
def c587 : ℚ := f64 (587 / 1000)

/-- The `float64` constant `0.114`. -/
def c114 : ℚ := f64 (114 / 1000)

/-- Source line 70: `gray := 0.299*float64(r8) + 0.587*float64(g8) + 0.114*float64(b8)`. -/
def gray (r8 g8 b8 : ℕ) : ℚ :=
  f64add (f64add (f64mul c299 (f64ofInt r8)) (f64mul c587 (f64ofInt g8)))
    (f64mul c114 (f64ofInt b8))

/-- Source line 79: `idx := int((gray / 255.0) * float64(len(grayRamp)-1))`. -/
def rampIndex (ovf : ℚ → ℤ) (g : ℚ) : ℤ :=
  f64ToInt ovf (f64mul (f64div g 255) (f64ofInt ((grayRamp.length : ℤ) - 1)))

/-- Go string indexing `s[i]`: panics (here `none`) outside `0 ≤ i < len(s)`. -/
def byteAt (s : List UInt8) (i : ℤ) : Option UInt8 :=
  if 0 ≤ i then s.get? i.toNat else none

/-- Source lines 71-81: the glyph `ch` chosen for the luminance `gray`. -/
def glyphOfGray (ovf : ℚ → ℤ) (useBW : Bool) (g : ℚ) : Option UInt8 :=
  if useBW then
    if g > 127 then some 0x20 else some 0x23
  else
    byteAt grayRamp (rampIndex ovf g)

/-- Source lines 70-81: the glyph `ch` chosen for a pixel with 8-bit channels. -/
def glyph (ovf : ℚ → ℤ) (useBW : Bool) (r8 g8 b8 : ℕ) : Option UInt8 :=
  glyphOfGray ovf useBW (gray r8 g8 b8)

/-- Decimal digits of `n`, as `%d` prints a non-negative integer. -/
def fmtD (n : ℕ) : List UInt8 := (Nat.toDigits 10 n).map Char.toUInt8

/-- The verb `%c` applied to a byte: the UTF-8 encoding of that code point. -/
def fmtC (ch : UInt8) : List UInt8 :=
  if ch < 0x80 then [ch] else [(0xc0 : UInt8) ||| (ch >>> 6), (0x80 : UInt8) ||| (ch &&& 0x3f)]

/-- Source line 85: `fmt.Sprintf("\033[38;2;%d;%d;%dm%c", r8, g8, b8, ch)`. -/
def colorCell (r8 g8 b8 : ℕ) (ch : UInt8) : List UInt8 :=
  [ESC, 0x5b, 0x33, 0x38, 0x3b, 0x32, 0x3b] ++ fmtD r8 ++ [0x3b] ++ fmtD g8 ++ [0x3b]
    ++ fmtD b8 ++ [0x6d] ++ fmtC ch

/-- Source line 91: the reset sequence `"\033[0m"`. -/
def resetSeq : List UInt8 := [ESC, 0x5b, 0x30, 0x6d]

/-- Source line 47: the placeholder `"(empty image)"`. -/
def emptyImageLine : List UInt8 :=
  [0x28, 0x65, 0x6d, 0x70, 0x74, 0x79, 0x20, 0x69, 0x6d, 0x61, 0x67, 0x65, 0x29]

/-- Source line 52: `targetHeight` computed from the extents and `targetWidth`. -/
def targetHeight (ovf : ℚ → ℤ) (w h targetWidth : ℤ) : ℤ :=
  let ratio := f64div (f64ofInt w) (f64ofInt h)
  clamp (f64ToInt ovf (f64div (f64div (f64ofInt targetWidth) ratio) 2)) 1 2000

/-- Source line 63: `srcX := int(float64(x) * xStep)` (and line 64 for `srcY`). -/
def srcCoord (ovf : ℚ → ℤ) (i : ℕ) (step : ℚ) : ℤ :=
  f64ToInt ovf (f64mul (f64ofInt i) step)

/-- Source lines 63-68: the 8-bit channels sampled for output cell `(x, y)`. -/
def sample (ovf : ℚ → ℤ) (img : Image) (xStep yStep : ℚ) (x y : ℕ) : ℕ × ℕ × ℕ :=
  let srcX := srcCoord ovf x xStep
  let srcY := srcCoord ovf y yStep
  let c := img.At (img.Bounds.Min.X + srcX) (img.Bounds.Min.Y + srcY)
  (uint8 (c.r >>> 8), uint8 (c.g >>> 8), uint8 (c.b >>> 8))

/-- Source lines 63-88: the bytes appended to the row for output cell `(x, y)`. -/
def cell (ovf : ℚ → ℤ) (img : Image) (xStep yStep : ℚ) (useColor useBW : Bool)
    (x y : ℕ) : Option (List UInt8) :=
  let p := sample ovf img xStep yStep x y
  match glyph ovf useBW p.1 p.2.1 p.2.2 with
  | none => none
  | some ch => if useColor then some (colorCell p.1 p.2.1 p.2.2 ch) else some [ch]

/-- Source lines 61-93: one iteration of the outer loop, the line for row `y`. -/
def row (ovf : ℚ → ℤ) (img : Image) (xStep yStep : ℚ) (targetWidth : ℤ)
    (useColor useBW : Bool) (y : ℕ) : Option (List UInt8) :=
  match (List.range targetWidth.toNat).mapM (cell ovf img xStep yStep useColor useBW · y) with
  | none => none
  | some cells => some (cells.flatten ++ if useColor then resetSeq else [])

/-- Source `toASCII`. -/
def toASCII (ovf : ℚ → ℤ) (img : Image) (targetWidth : ℤ) (useColor useBW : Bool) :
    Option (List (List UInt8)) :=
  let w := img.Bounds.Dx
  let h := img.Bounds.Dy
  if w = 0 ∨ h = 0 then some [emptyImageLine]
  else
    let th := targetHeight ovf w h targetWidth
    let xStep := f64div (f64ofInt w) (f64ofInt targetWidth)
    let yStep := f64div (f64ofInt h) (f64ofInt th)
    (List.range th.toNat).mapM (row ovf img xStep yStep targetWidth useColor useBW)

/-! ## `stripANSI` -/

/-- The test `(c >= 'A' && c <= 'Z') || (c >= 'a' && c <= 'z')` of source line 144. -/
def isLetter (c : UInt8) : Bool := (c ≥ 0x41 && c ≤ 0x5a) || (c ≥ 0x61 && c ≤ 0x7a)

/-- One iteration of the loop of `stripANSI`; the state is `(inEsc, out)`. -/
def stripStep (st : Bool × List UInt8) (c : UInt8) : Bool × List UInt8 :=
  if c = ESC then (true, st.2)
  else if st.1 then
    if isLetter c then (false, st.2) else (true, st.2)
  else (false, st.2 ++ [c])

/-- Source `stripANSI`. -/
def stripANSI (s : List UInt8) : List UInt8 := (s.foldl stripStep (false, [])).2



/-! ## Auxiliary definitions used in the statements and proofs -/

/-- The byte at column `x` of line `y` of a rendering, if there is one. -/
def charAt (lines : List (List UInt8)) (x y : ℕ) : Option UInt8 :=
  (lines.get? y).bind (fun line => line.get? x)

/-- The glyph of a sampled pixel, with `0` standing for a failed ramp lookup
(`glyph_eq_some` shows that the lookup never fails on 8-bit channels). -/
def glyphD (ovf : ℚ → ℤ) (useBW : Bool) (p : ℕ × ℕ × ℕ) : UInt8 :=
  (glyph ovf useBW p.1 p.2.1 p.2.2).getD 0

/-- The bytes of one cell, given the sampled channels. -/
def cellBytes (ovf : ℚ → ℤ) (useColor useBW : Bool) (p : ℕ × ℕ × ℕ) : List UInt8 :=
  if useColor then colorCell p.1 p.2.1 p.2.2 (glyphD ovf useBW p) else [glyphD ovf useBW p]

/-- An out-of-range `int(f)` as amd64 produces it: the most negative integer. -/
def ovfMinInt : ℚ → ℤ := fun _ => -(2 : ℤ) ^ 63

/-- The loop of `stripANSI` as a recursive function of the flag `inEsc` and the
remaining input; it returns the bytes appended to `out`. -/
def stripFrom : Bool → List UInt8 → List UInt8
  | _, [] => []
  | inEsc, c :: cs =>
    if c = ESC then stripFrom true cs
    else if inEsc then
      if isLetter c then stripFrom false cs else stripFrom true cs
    else c :: stripFrom false cs

/-- The height as the specification words it:
`clamp(round(targetWidth * h / (w * 2)), 1, 2000)` over exact quotients. -/
def specTargetHeight (w h targetWidth : ℤ) : ℤ :=
  clamp (round ((targetWidth : ℚ) * h / (w * 2))) 1 2000

/-- An image of the given extent, anchored at the origin, of a single colour. -/
def solidImage (w h : ℤ) (c : RGBA) : Image :=
  ⟨⟨⟨0, 0⟩, ⟨w, h⟩⟩, fun _ _ => c⟩

/-- Opaque white, `RGBA()` = `(0xffff, 0xffff, 0xffff, 0xffff)`. -/
def white : RGBA := ⟨0xffff, 0xffff, 0xffff, 0xffff⟩

/-- The bytes that follow the first ASCII letter of `s` (nothing if `s` has no letter):
what remains after an escape sequence whose introducer has just been read. -/
def dropThroughLetter : List UInt8 → List UInt8
  | [] => []
  | c :: cs => if isLetter c then cs else dropThroughLetter cs

/-- Fuelled form of `removeEscapes`; `fuel` bounds the length of the input. -/
def removeEscapesAux : ℕ → List UInt8 → List UInt8
  | 0, _ => []
  | _ + 1, [] => []
  | fuel + 1, c :: cs =>
    if c = ESC then removeEscapesAux fuel (dropThroughLetter cs)
    else c :: removeEscapesAux fuel cs

/-- The string `s` with every escape sequence removed, as the specification
words it: an escape sequence starts at an ESC byte and runs up to and including
the first subsequent ASCII letter; every other byte is kept, in order. -/
def removeEscapes (s : List UInt8) : List UInt8 := removeEscapesAux s.length s

/-- Opaque black, `RGBA()` = `(0, 0, 0, 0xffff)`. -/
def black : RGBA := ⟨0, 0, 0, 0xffff⟩

/-- Opaque grey of 8-bit level `v` (each 16-bit channel is `v * 0x101`, as
`color.RGBA.RGBA()` yields). -/
def grey (v : ℕ) : RGBA := ⟨v * 0x101, v * 0x101, v * 0x101, 0xffff⟩

/-- The luminance `gray` with the three constants and the channel conversions
already rounded (see `gray_eq_grayLit`): only the five run-time operations remain. -/
def grayLit (r g b : ℕ) : ℚ :=
  f64add
    (f64add (f64mul (5386305154335113 / 18014398509481984) r)
      (f64mul (2643612981266481 / 4503599627370496) g))
    (f64mul (8214565720323785 / 72057594037927936) b)

/-- Check used to enumerate the pixels whose exact luminance is 127.  A solution
of `299 r + 587 g + 114 b = 127000` has `g ≡ 74 + 83 r (mod 114)`; for the
candidate `g` numbered `k` the check says that, when `b < 256` solves the
equation, the computed luminance of the pixel is at most 127. -/
def boundaryCheck (r k : ℕ) : Bool :=
  let g := (74 + 83 * r) % 114 + 114 * k
  let n := 127000 - 299 * r - 587 * g
  if g < 256 ∧ 299 * r + 587 * g ≤ 127000 ∧ n % 114 = 0 ∧ n / 114 < 256 then
    decide (grayLit r g (n / 114) ≤ 127)
  else true

/-- The check `boundaryCheck` over all 8-bit values of `r` and the three candidates for `g`. -/
def boundaryAll : Bool :=
  (List.range 256).all fun r => (List.range 3).all fun k => boundaryCheck r k

/-! ## The formulas over exact numbers, and test images -/

/-- The source column (or row) as the specification words it:
`floor(i * extent / n)`, over exact numbers. -/
def specSrcCoord (i : ℕ) (extent n : ℤ) : ℤ := ⌊((i : ℚ) * extent) / n⌋

/-- The ramp index as the specification words it: `floor((L / 255) * 9)` with
`L = 0.299 R + 0.587 G + 0.114 B`, over exact numbers. -/
def specRampIndex (r g b : ℕ) : ℤ :=
  ⌊((299 * (r : ℚ) + 587 * (g : ℚ) + 114 * (b : ℚ)) / 1000 / 255) * 9⌋

/-- A 30x1 image, black except for the white pixel in column 15. -/
def stripeImage : Image :=
  ⟨⟨⟨0, 0⟩, ⟨30, 1⟩⟩, fun x _ => if x = 15 then white else black⟩

/-- Opaque colour with the 8-bit channels `r`, `g`, `b` (each 16-bit channel is
the 8-bit value times `0x101`, as `color.RGBA.RGBA()` yields). -/
def rgb8 (r g b : ℕ) : RGBA := ⟨r * 0x101, g * 0x101, b * 0x101, 0xffff⟩

/-! ## `writeOutput` and the animation loop of `main` -/

/-- The Markdown fence line (three backquotes and a newline). -/
def fence : List UInt8 := [0x60, 0x60, 0x60, 0x0a]

/-- Source lines 109-124 of `writeOutput`: the text assembled in the builder `b`.
The source then writes this text to standard output or to the file `path`; that
write, and the error it may return, are outside the model. -/
def writeOutput (lines : List (List UInt8)) (asMarkdown : Bool) : List UInt8 :=
  let b0 : List UInt8 := if asMarkdown then fence else []
  let b1 := lines.foldl
    (fun b l => b ++ (if asMarkdown then stripANSI l else l) ++ [0x0a]) b0
  if asMarkdown then b1 ++ fence else b1

/-- Go `time.Millisecond`: a `time.Duration` counts nanoseconds. -/
def Millisecond : ℤ := 1000000

/-- Go `time.Second`. -/
def Second : ℤ := 1000 * Millisecond

/-- Source lines 227-230: the display time of a frame whose GIF delay is `d`
hundredths of a second.  The GIF decoder yields delays in `0..65535`, so the
64-bit products of the source cannot wrap. -/
def frameDuration (d : ℤ) : ℤ :=
  let ms := (d * 10) * Millisecond
  if ms ≤ 0 then 50 * Millisecond else ms

/-- Source lines 224-232: `frameDurations` built from `g.Delay`. -/
def frameDurations (delays : List ℤ) : List ℤ :=
  delays.foldl (fun acc d => acc ++ [frameDuration d]) []

/-- Go slice indexing `s[i]` on durations: a panic (`none`) outside `0 ≤ i < len(s)`. -/
def durationAt (s : List ℤ) (i : ℤ) : Option ℤ :=
  if 0 ≤ i then s.get? i.toNat else none

/-- Source lines 234-239, the closure `tick`.  Go's `/` and `%` on integers
truncate toward zero (`Int.tdiv`, `Int.tmod`); `i % 0` panics (`none`). -/
def tick (fps : ℤ) (durations : List ℤ) (i : ℤ) : Option ℤ :=
  if fps > 0 then some (Int.tdiv Second fps)
  else if durations.length = 0 then none
  else durationAt durations (Int.tmod i (durations.length : ℤ))

/-- The state of the animation loop of `main` (source lines 241-249): the counter
`i`, the indices of the frames printed so far, the durations slept so far, and
whether the loop has been left by `break` or by a panic. -/
structure AnimState where
  i : ℤ
  shown : List ℤ
  slept : List ℤ
  exited : Bool
  panicked : Bool

/-- The state before the first iteration (`i := 0`). -/
def animInit : AnimState := ⟨0, [], [], false, false⟩

/-- One iteration of the animation loop with `n` pre-rendered frames:
`printFrame(framesASCII[i%n])`, `time.Sleep(tick(i))`, `i++`, and `break` when
`!loop && i >= n`.  The counter is not wrapped: it would take `2^63` iterations. -/
def animStep (fps : ℤ) (durations : List ℤ) (n : ℕ) (loop : Bool) (s : AnimState) : AnimState :=
  if s.exited ∨ s.panicked then s
  else if n = 0 then { s with panicked := true }
  else
    let idx := Int.tmod s.i (n : ℤ)
    if idx < 0 ∨ (n : ℤ) ≤ idx then { s with panicked := true }
    else
      match tick fps durations s.i with
      | none => { s with shown := s.shown ++ [idx], panicked := true }
      | some d =>
        { i := s.i + 1, shown := s.shown ++ [idx], slept := s.slept ++ [d],
          exited := !loop && decide ((n : ℤ) ≤ s.i + 1), panicked := false }

/-- The state after `k` iterations of the animation loop. -/
def animRun (fps : ℤ) (durations : List ℤ) (n : ℕ) (loop : Bool) : ℕ → AnimState
  | 0 => animInit
  | k + 1 => animStep fps durations n loop (animRun fps durations n loop k)

/-! ## Properties of the rounding model -/

theorem log2Aux_spec (fuel n : ℕ) (hle : n ≤ fuel) (hn : n ≠ 0) :
    2 ^ log2Aux fuel n ≤ n ∧ n < 2 ^ (log2Aux fuel n + 1) := by
  induction fuel generalizing n with
  | zero => omega
  | succ fuel ih =>
    unfold log2Aux
    split_ifs with h2
    · have h := ih (n / 2) (by omega) (by omega)
      rw [pow_succ, pow_succ] at *
      rw [pow_succ]
      omega
    · have : n = 1 := by omega
      subst this
      simp

theorem natLog2_spec (n : ℕ) (hn : n ≠ 0) :
    2 ^ natLog2 n ≤ n ∧ n < 2 ^ (natLog2 n + 1) :=
  log2Aux_spec n n le_rfl hn

theorem abs_eq_natAbs_div_den (q : ℚ) : |q| = (q.num.natAbs : ℚ) / (q.den : ℚ) := by
  conv_lhs => rw [← Rat.num_div_den q]
  rw [abs_div, Nat.abs_cast, Nat.cast_natAbs, Int.cast_abs]

theorem binExp_spec (q : ℚ) (hq : q ≠ 0) :
    (2 : ℚ) ^ binExp q ≤ |q| ∧ |q| < (2 : ℚ) ^ (binExp q + 1) := by
  have hn : q.num.natAbs ≠ 0 := by
    simpa [Int.natAbs_eq_zero] using hq
  have hd : q.den ≠ 0 := q.den_nz
  obtain ⟨hn1, hn2⟩ := natLog2_spec _ hn
  obtain ⟨hd1, hd2⟩ := natLog2_spec _ hd
  have habs := abs_eq_natAbs_div_den q
  set n := q.num.natAbs
  set d := q.den
  set a := natLog2 n
  set b := natLog2 d
  have hdpos : (0 : ℚ) < d := by exact_mod_cast Nat.pos_of_ne_zero hd
  have hn1' : (2 : ℚ) ^ a ≤ n := by exact_mod_cast hn1
  have hn2' : (n : ℚ) < 2 ^ (a + 1) := by exact_mod_cast hn2
  have hd1' : (2 : ℚ) ^ b ≤ d := by exact_mod_cast hd1
  have hd2' : (d : ℚ) < 2 ^ (b + 1) := by exact_mod_cast hd2
  have h2b : (0 : ℚ) < 2 ^ b := by positivity
  have hk : ∀ j : ℤ, (2 : ℚ) ^ ((a : ℤ) - (b : ℤ) + j) = 2 ^ a / 2 ^ b * 2 ^ j := by
    intro j
    rw [zpow_add₀ (by norm_num), zpow_sub₀ (by norm_num), zpow_natCast, zpow_natCast]
  have hup : |q| < (2 : ℚ) ^ ((a : ℤ) - (b : ℤ) + 1) := by
    rw [hk, habs, zpow_one, div_mul_eq_mul_div, div_lt_div_iff₀ hdpos h2b]
    have : (n : ℚ) * 2 ^ b < 2 ^ a * 2 * 2 ^ b := by
      have := mul_lt_mul_of_pos_right hn2' h2b
      rwa [pow_succ] at this
    calc (n : ℚ) * 2 ^ b < 2 ^ a * 2 * 2 ^ b := this
      _ ≤ 2 ^ a * 2 * d := by
        apply mul_le_mul_of_nonneg_left hd1' (by positivity)
  have hlo : (2 : ℚ) ^ ((a : ℤ) - (b : ℤ) - 1) < |q| := by
    have := hk (-1)
    rw [← sub_eq_add_neg] at this
    rw [this, habs, zpow_neg, zpow_one, div_mul_eq_mul_div, div_lt_div_iff₀ h2b hdpos]
    have h1 : (2 : ℚ) ^ a * 2⁻¹ * d < 2 ^ a * 2⁻¹ * 2 ^ (b + 1) :=
      mul_lt_mul_of_pos_left hd2' (by positivity)
    calc (2 : ℚ) ^ a * 2⁻¹ * d < 2 ^ a * 2⁻¹ * 2 ^ (b + 1) := h1
      _ = 2 ^ a * 2 ^ b := by rw [pow_succ]; ring
      _ ≤ n * 2 ^ b := mul_le_mul_of_nonneg_right hn1' (le_of_lt h2b)
  unfold binExp
  simp only []
  split_ifs with h
  · exact ⟨h, hup⟩
  · refine ⟨le_of_lt hlo, ?_⟩
    rw [sub_add_cancel]
    exact lt_of_not_le h

theorem roundHalfEven_floor_le (q : ℚ) : ⌊q⌋ ≤ roundHalfEven q := by
  unfold roundHalfEven
  simp only []
  split_ifs <;> omega

theorem roundHalfEven_le_floor_succ (q : ℚ) : roundHalfEven q ≤ ⌊q⌋ + 1 := by
  unfold roundHalfEven
  simp only []
  split_ifs <;> omega

theorem roundHalfEven_intCast (n : ℤ) : roundHalfEven (n : ℚ) = n := by
  unfold roundHalfEven
  simp

theorem roundHalfEven_mono {p q : ℚ} (h : p ≤ q) : roundHalfEven p ≤ roundHalfEven q := by
  rcases lt_or_eq_of_le (Int.floor_mono h) with hlt | heq
  · calc roundHalfEven p ≤ ⌊p⌋ + 1 := roundHalfEven_le_floor_succ p
      _ ≤ ⌊q⌋ := hlt
      _ ≤ roundHalfEven q := roundHalfEven_floor_le q
  · unfold roundHalfEven
    simp only []
    rw [heq]
    have hsub : p - (⌊q⌋ : ℚ) ≤ q - (⌊q⌋ : ℚ) := by linarith
    split_ifs <;> first | omega | linarith

theorem roundHalfEven_sub_le (q : ℚ) : |(roundHalfEven q : ℚ) - q| ≤ 1 / 2 := by
  have h1 := Int.floor_le q
  have h2 := Int.lt_floor_add_one q
  unfold roundHalfEven
  simp only []
  rw [abs_le]
  split_ifs <;> constructor <;> push_cast <;> linarith

theorem ulp_pos (q : ℚ) : 0 < ulp q := by
  unfold ulp
  positivity

/-- For positive `q`, the scaled significand `q / ulp q` lies in `[2^52, 2^53)`. -/
theorem scaled_bounds {q : ℚ} (hq : 0 < q) :
    (2 : ℚ) ^ (52 : ℕ) ≤ q / ulp q ∧ q / ulp q < (2 : ℚ) ^ (53 : ℕ) := by
  obtain ⟨h1, h2⟩ := binExp_spec q (ne_of_gt hq)
  rw [abs_of_pos hq] at h1 h2
  have hu := ulp_pos q
  have e1 : (2 : ℚ) ^ (52 : ℕ) * ulp q = 2 ^ binExp q := by
    unfold ulp
    rw [← zpow_natCast, ← zpow_add₀ (by norm_num)]
    congr 1
    push_cast
    ring
  have e2 : (2 : ℚ) ^ (53 : ℕ) * ulp q = 2 ^ (binExp q + 1) := by
    unfold ulp
    rw [← zpow_natCast, ← zpow_add₀ (by norm_num)]
    congr 1
    push_cast
    ring
  constructor
  · rw [le_div_iff₀ hu, e1]; exact h1
  · rw [div_lt_iff₀ hu, e2]; exact h2

theorem f64_of_pos {q : ℚ} (hq : 0 < q) : f64 q = (roundHalfEven (q / ulp q) : ℚ) * ulp q := by
  unfold f64
  rw [if_neg (ne_of_gt hq)]

/-- A positive value is rounded within its binade. -/
theorem f64_binade {q : ℚ} (hq : 0 < q) :
    (2 : ℚ) ^ binExp q ≤ f64 q ∧ f64 q ≤ (2 : ℚ) ^ (binExp q + 1) := by
  obtain ⟨h1, h2⟩ := scaled_bounds hq
  have hu := ulp_pos q
  have e1 : (2 : ℚ) ^ (52 : ℕ) * ulp q = 2 ^ binExp q := by
    unfold ulp
    rw [← zpow_natCast, ← zpow_add₀ (by norm_num)]
    congr 1
    push_cast
    ring
  have e2 : (2 : ℚ) ^ (53 : ℕ) * ulp q = 2 ^ (binExp q + 1) := by
    unfold ulp
    rw [← zpow_natCast, ← zpow_add₀ (by norm_num)]
    congr 1
    push_cast
    ring
  have r1 : ((2 : ℤ) ^ (52 : ℕ) : ℤ) ≤ roundHalfEven (q / ulp q) := by
    have := roundHalfEven_mono (p := (((2 : ℤ) ^ (52 : ℕ) : ℤ) : ℚ)) (q := q / ulp q)
      (by push_cast; exact h1)
    rwa [roundHalfEven_intCast] at this
  have r2 : roundHalfEven (q / ulp q) ≤ ((2 : ℤ) ^ (53 : ℕ) : ℤ) := by
    have := roundHalfEven_mono (p := q / ulp q) (q := (((2 : ℤ) ^ (53 : ℕ) : ℤ) : ℚ))
      (by push_cast; exact le_of_lt h2)
    rwa [roundHalfEven_intCast] at this
  have r1' : (2 : ℚ) ^ (52 : ℕ) ≤ (roundHalfEven (q / ulp q) : ℚ) := by exact_mod_cast r1
  have r2' : (roundHalfEven (q / ulp q) : ℚ) ≤ (2 : ℚ) ^ (53 : ℕ) := by exact_mod_cast r2
  rw [f64_of_pos hq, ← e1, ← e2]
  exact ⟨mul_le_mul_of_nonneg_right r1' (le_of_lt hu), mul_le_mul_of_nonneg_right r2' (le_of_lt hu)⟩

theorem f64_pos {q : ℚ} (hq : 0 < q) : 0 < f64 q :=
  lt_of_lt_of_le (by positivity) (f64_binade hq).1

theorem f64_zero : f64 0 = 0 := by
  unfold f64
  simp

theorem f64_nonneg {q : ℚ} (hq : 0 ≤ q) : 0 ≤ f64 q := by
  rcases eq_or_lt_of_le hq with h | h
  · rw [← h, f64_zero]
  · exact le_of_lt (f64_pos h)

theorem f64_mono_pos {p q : ℚ} (hp : 0 < p) (h : p ≤ q) : f64 p ≤ f64 q := by
  have hq : 0 < q := lt_of_lt_of_le hp h
  obtain ⟨p1, p2⟩ := binExp_spec p (ne_of_gt hp)
  obtain ⟨q1, q2⟩ := binExp_spec q (ne_of_gt hq)
  rw [abs_of_pos hp] at p1 p2
  rw [abs_of_pos hq] at q1 q2
  have hlt : (2 : ℚ) ^ binExp p < 2 ^ (binExp q + 1) := lt_of_le_of_lt (le_trans p1 h) q2
  rw [zpow_lt_zpow_iff_right₀ (by norm_num)] at hlt
  rcases lt_or_eq_of_le (Int.lt_add_one_iff.mp hlt) with hl | he
  · calc f64 p ≤ 2 ^ (binExp p + 1) := (f64_binade hp).2
      _ ≤ 2 ^ binExp q := zpow_le_zpow_right₀ (by norm_num) hl
      _ ≤ f64 q := (f64_binade hq).1
  · have hu : ulp p = ulp q := by unfold ulp; rw [he]
    rw [f64_of_pos hp, f64_of_pos hq, hu]
    apply mul_le_mul_of_nonneg_right _ (le_of_lt (ulp_pos q))
    have : p / ulp q ≤ q / ulp q := div_le_div_of_nonneg_right h (le_of_lt (ulp_pos q))
    exact_mod_cast roundHalfEven_mono this

/-- Rounding to binary64 is monotone on the non-negative rationals. -/
theorem f64_mono {p q : ℚ} (hp : 0 ≤ p) (h : p ≤ q) : f64 p ≤ f64 q := by
  rcases eq_or_lt_of_le hp with h0 | h0
  · rw [← h0, f64_zero]
    exact f64_nonneg (le_trans hp h)
  · exact f64_mono_pos h0 h

theorem f64ofInt_nonneg (n : ℕ) : 0 ≤ f64ofInt (n : ℤ) := by
  unfold f64ofInt
  exact f64_nonneg (by positivity)

theorem f64ofInt_mono {m n : ℕ} (h : m ≤ n) : f64ofInt (m : ℤ) ≤ f64ofInt (n : ℤ) := by
  unfold f64ofInt
  apply f64_mono (by positivity)
  exact_mod_cast h

theorem c299_nonneg : 0 ≤ c299 := f64_nonneg (by norm_num)
theorem c587_nonneg : 0 ≤ c587 := f64_nonneg (by norm_num)
theorem c114_nonneg : 0 ≤ c114 := f64_nonneg (by norm_num)

theorem gray_nonneg (r g b : ℕ) : 0 ≤ gray r g b := by
  unfold gray f64add f64mul
  have hr := f64ofInt_nonneg r
  have hg := f64ofInt_nonneg g
  have hb := f64ofInt_nonneg b
  have h1 := f64_nonneg (mul_nonneg c299_nonneg hr)
  have h2 := f64_nonneg (mul_nonneg c587_nonneg hg)
  have h3 := f64_nonneg (mul_nonneg c114_nonneg hb)
  exact f64_nonneg (add_nonneg (f64_nonneg (add_nonneg h1 h2)) h3)

/-- The computed luminance is monotone in each channel. -/
theorem gray_mono {r g b r' g' b' : ℕ} (hr : r ≤ r') (hg : g ≤ g') (hb : b ≤ b') :
    gray r g b ≤ gray r' g' b' := by
  unfold gray f64add f64mul
  have a1 := f64ofInt_nonneg r
  have a2 := f64ofInt_nonneg g
  have a3 := f64ofInt_nonneg b
  have m1 : f64 (c299 * f64ofInt r) ≤ f64 (c299 * f64ofInt r') :=
    f64_mono (mul_nonneg c299_nonneg a1) (mul_le_mul_of_nonneg_left (f64ofInt_mono hr) c299_nonneg)
  have m2 : f64 (c587 * f64ofInt g) ≤ f64 (c587 * f64ofInt g') :=
    f64_mono (mul_nonneg c587_nonneg a2) (mul_le_mul_of_nonneg_left (f64ofInt_mono hg) c587_nonneg)
  have m3 : f64 (c114 * f64ofInt b) ≤ f64 (c114 * f64ofInt b') :=
    f64_mono (mul_nonneg c114_nonneg a3) (mul_le_mul_of_nonneg_left (f64ofInt_mono hb) c114_nonneg)
  have n1 := f64_nonneg (mul_nonneg c299_nonneg a1)
  have n2 := f64_nonneg (mul_nonneg c587_nonneg a2)
  have n3 := f64_nonneg (mul_nonneg c114_nonneg a3)
  have s1 := f64_mono (add_nonneg n1 n2) (add_le_add m1 m2)
  exact f64_mono (add_nonneg (f64_nonneg (add_nonneg n1 n2)) n3) (add_le_add s1 m3)

theorem gray_white : gray 255 255 255 = 255 := by decide!

theorem gray_le_255 {r g b : ℕ} (hr : r ≤ 255) (hg : g ≤ 255) (hb : b ≤ 255) :
    gray r g b ≤ 255 := by
  rw [← gray_white]
  exact gray_mono hr hg hb

/-- The scaled luminance `(gray / 255.0) * 9` as the source computes it. -/
theorem scaled_mono {g g' : ℚ} (h0 : 0 ≤ g) (h : g ≤ g') :
    f64mul (f64div g 255) (f64ofInt ((grayRamp.length : ℤ) - 1))
      ≤ f64mul (f64div g' 255) (f64ofInt ((grayRamp.length : ℤ) - 1)) := by
  have h9 : f64ofInt ((grayRamp.length : ℤ) - 1) = 9 := by decide!
  rw [h9]
  unfold f64mul f64div
  have d0 : 0 ≤ g / 255 := by positivity
  have d1 : f64 (g / 255) ≤ f64 (g' / 255) := f64_mono d0 (by linarith)
  exact f64_mono (mul_nonneg (f64_nonneg d0) (by norm_num))
    (mul_le_mul_of_nonneg_right d1 (by norm_num))

theorem scaled_nonneg {g : ℚ} (h0 : 0 ≤ g) :
    0 ≤ f64mul (f64div g 255) (f64ofInt ((grayRamp.length : ℤ) - 1)) := by
  have h9 : f64ofInt ((grayRamp.length : ℤ) - 1) = 9 := by decide!
  rw [h9]
  unfold f64mul f64div
  exact f64_nonneg (mul_nonneg (f64_nonneg (by positivity)) (by norm_num))

theorem scaled_255 : f64mul (f64div 255 255) (f64ofInt ((grayRamp.length : ℤ) - 1)) = 9 := by
  decide!

theorem truncQ_of_nonneg {q : ℚ} (h : 0 ≤ q) : truncQ q = ⌊q⌋ := by
  unfold truncQ
  rw [if_pos h]

/-- On luminances in `[0, 255]` the ramp index is the floor of the scaled luminance and lies in `0..9`. -/
theorem rampIndex_spec (ovf : ℚ → ℤ) {g : ℚ} (h0 : 0 ≤ g) (h1 : g ≤ 255) :
    rampIndex ovf g = ⌊f64mul (f64div g 255) (f64ofInt ((grayRamp.length : ℤ) - 1))⌋
      ∧ 0 ≤ rampIndex ovf g ∧ rampIndex ovf g ≤ 9 := by
  have hs0 := scaled_nonneg h0
  have hs1 := scaled_mono h0 h1
  rw [scaled_255] at hs1
  have hf0 : 0 ≤ ⌊f64mul (f64div g 255) (f64ofInt ((grayRamp.length : ℤ) - 1))⌋ :=
    Int.floor_nonneg.mpr hs0
  have hf1 : ⌊f64mul (f64div g 255) (f64ofInt ((grayRamp.length : ℤ) - 1))⌋ ≤ 9 := by
    have := Int.floor_mono hs1
    simpa using this
  have he : rampIndex ovf g = ⌊f64mul (f64div g 255) (f64ofInt ((grayRamp.length : ℤ) - 1))⌋ := by
    unfold rampIndex f64ToInt
    simp only []
    rw [truncQ_of_nonneg hs0, if_pos]
    constructor <;> omega
  rw [he]
  exact ⟨rfl, hf0, hf1⟩

theorem rampIndex_mono (ovf : ℚ → ℤ) {g g' : ℚ} (h0 : 0 ≤ g) (h : g ≤ g') (h1 : g' ≤ 255) :
    rampIndex ovf g ≤ rampIndex ovf g' := by
  rw [(rampIndex_spec ovf h0 (le_trans h h1)).1, (rampIndex_spec ovf (le_trans h0 h) h1).1]
  exact Int.floor_mono (scaled_mono h0 h)

/-! ## Structure of the output of `toASCII` -/

theorem mapM_option_eq_some {α β : Type} (f : α → Option β) (g : α → β) (l : List α)
    (h : ∀ a ∈ l, f a = some (g a)) : l.mapM f = some (l.map g) := by
  induction l with
  | nil => rfl
  | cons a l ih =>
    have ha := h a (List.mem_cons_self a l)
    have hl := ih (fun b hb => h b (List.mem_cons_of_mem a hb))
    rw [List.mapM_cons, ha, hl]
    rfl

theorem flatten_map_singleton {α β : Type} (f : α → β) (l : List α) :
    (l.map (fun a => [f a])).flatten = l.map f := by
  induction l with
  | nil => rfl
  | cons a l ih => simp [ih]

theorem uint8_le (v : ℕ) : uint8 v ≤ 255 := by
  unfold uint8
  omega

/-- The glyph lookup succeeds on 8-bit channels. -/
theorem glyph_eq_some (ovf : ℚ → ℤ) (useBW : Bool) (p : ℕ × ℕ × ℕ)
    (hr : p.1 ≤ 255) (hg : p.2.1 ≤ 255) (hb : p.2.2 ≤ 255) :
    glyph ovf useBW p.1 p.2.1 p.2.2 = some (glyphD ovf useBW p) := by
  unfold glyphD
  cases useBW with
  | true =>
    unfold glyph glyphOfGray
    simp only [if_true]
    split_ifs <;> rfl
  | false =>
    obtain ⟨-, h0, h9⟩ := rampIndex_spec ovf (gray_nonneg p.1 p.2.1 p.2.2) (gray_le_255 hr hg hb)
    unfold glyph glyphOfGray byteAt
    simp only [Bool.false_eq_true, if_false, if_pos h0]
    have hlt : (rampIndex ovf (gray p.1 p.2.1 p.2.2)).toNat < grayRamp.length := by
      have : grayRamp.length = 10 := rfl
      omega
    rw [List.get?_eq_get hlt]
    rfl

theorem sample_le (ovf : ℚ → ℤ) (img : Image) (xStep yStep : ℚ) (x y : ℕ) :
    (sample ovf img xStep yStep x y).1 ≤ 255 ∧ (sample ovf img xStep yStep x y).2.1 ≤ 255
      ∧ (sample ovf img xStep yStep x y).2.2 ≤ 255 :=
  ⟨uint8_le _, uint8_le _, uint8_le _⟩

theorem cell_eq_some (ovf : ℚ → ℤ) (img : Image) (xStep yStep : ℚ) (useColor useBW : Bool)
    (x y : ℕ) :
    cell ovf img xStep yStep useColor useBW x y
      = some (cellBytes ovf useColor useBW (sample ovf img xStep yStep x y)) := by
  obtain ⟨h1, h2, h3⟩ := sample_le ovf img xStep yStep x y
  unfold cell cellBytes
  simp only []
  rw [glyph_eq_some ovf useBW _ h1 h2 h3]
  split_ifs <;> rfl

theorem row_eq_some (ovf : ℚ → ℤ) (img : Image) (xStep yStep : ℚ) (targetWidth : ℤ)
    (useColor useBW : Bool) (y : ℕ) :
    row ovf img xStep yStep targetWidth useColor useBW y
      = some (((List.range targetWidth.toNat).map
          (fun x => cellBytes ovf useColor useBW (sample ovf img xStep yStep x y))).flatten
          ++ if useColor then resetSeq else []) := by
  unfold row
  rw [mapM_option_eq_some _ (fun x => cellBytes ovf useColor useBW (sample ovf img xStep yStep x y))
    _ (fun x _ => cell_eq_some ovf img xStep yStep useColor useBW x y)]

/-- On a non-empty image `toASCII` returns `targetHeight` rows, each the
concatenation of its cells (followed by the reset sequence in colour mode). -/
theorem toASCII_eq_some (ovf : ℚ → ℤ) (img : Image) (targetWidth : ℤ) (useColor useBW : Bool)
    (hw : img.Bounds.Dx ≠ 0) (hh : img.Bounds.Dy ≠ 0) :
    toASCII ovf img targetWidth useColor useBW
      = some ((List.range (targetHeight ovf img.Bounds.Dx img.Bounds.Dy targetWidth).toNat).map
          (fun y => ((List.range targetWidth.toNat).map
            (fun x => cellBytes ovf useColor useBW
              (sample ovf img (f64div (f64ofInt img.Bounds.Dx) (f64ofInt targetWidth))
                (f64div (f64ofInt img.Bounds.Dy)
                  (f64ofInt (targetHeight ovf img.Bounds.Dx img.Bounds.Dy targetWidth)))
                x y))).flatten
            ++ if useColor then resetSeq else [])) := by
  unfold toASCII
  simp only []
  rw [if_neg (by tauto)]
  exact mapM_option_eq_some _ _ _ (fun y _ => row_eq_some ovf img _ _ targetWidth useColor useBW y)

theorem targetHeight_bounds (ovf : ℚ → ℤ) (w h targetWidth : ℤ) :
    1 ≤ targetHeight ovf w h targetWidth ∧ targetHeight ovf w h targetWidth ≤ 2000 := by
  unfold targetHeight clamp
  simp only []
  split_ifs <;> constructor <;> omega

/-! ## `stripANSI` -/

theorem foldl_stripStep (s : List UInt8) (inEsc : Bool) (out : List UInt8) :
    (s.foldl stripStep (inEsc, out)).2 = out ++ stripFrom inEsc s := by
  induction s generalizing inEsc out with
  | nil => simp [stripFrom]
  | cons c cs ih =>
    rw [List.foldl_cons, stripFrom]
    by_cases h1 : c = ESC
    · simp only [stripStep, h1, if_true]
      exact ih true out
    · cases inEsc with
      | true =>
        by_cases h2 : isLetter c = true
        · simp only [stripStep, h1, h2, if_true, if_false]
          exact ih false out
        · simp only [stripStep, h1, h2, if_true, if_false]
          exact ih true out
      | false =>
        simp only [stripStep, h1, if_false, Bool.false_eq_true]
        rw [ih false (out ++ [c])]
        simp

theorem stripANSI_eq_stripFrom (s : List UInt8) : stripANSI s = stripFrom false s := by
  unfold stripANSI
  rw [foldl_stripStep]
  rfl

theorem stripFrom_no_esc (inEsc : Bool) (s : List UInt8) : ESC ∉ stripFrom inEsc s := by
  induction s generalizing inEsc with
  | nil => simp [stripFrom]
  | cons c cs ih =>
    unfold stripFrom
    split_ifs with h1 h2 h3
    · exact ih true
    · exact ih false
    · exact ih true
    · intro hmem
      rcases List.mem_cons.mp hmem with h | h
      · exact h1 h.symm
      · exact ih false h

theorem stripFrom_of_no_esc (s : List UInt8) (h : ESC ∉ s) : stripFrom false s = s := by
  induction s with
  | nil => rfl
  | cons c cs ih =>
    have hc : c ≠ ESC := fun e => h (e ▸ List.mem_cons_self c cs)
    have hcs : ESC ∉ cs := fun m => h (List.mem_cons_of_mem c m)
    unfold stripFrom
    simp [hc, ih hcs]

theorem dropThroughLetter_length_le (s : List UInt8) : (dropThroughLetter s).length ≤ s.length := by
  induction s with
  | nil => simp [dropThroughLetter]
  | cons c cs ih =>
    unfold dropThroughLetter
    split_ifs
    · simp
    · simp only [List.length_cons]; omega

theorem isLetter_ESC : isLetter ESC = false := by decide

theorem stripFrom_true (s : List UInt8) :
    stripFrom true s = stripFrom false (dropThroughLetter s) := by
  induction s with
  | nil => simp [stripFrom, dropThroughLetter]
  | cons c cs ih =>
    unfold dropThroughLetter
    rw [stripFrom]
    by_cases h1 : c = ESC
    · subst h1
      simp [isLetter_ESC, ih]
    · by_cases h2 : isLetter c = true
      · simp [h1, h2]
      · simp [h1, h2, ih]

theorem stripFrom_eq_removeEscapesAux (fuel : ℕ) (s : List UInt8) (h : s.length ≤ fuel) :
    stripFrom false s = removeEscapesAux fuel s := by
  induction fuel generalizing s with
  | zero =>
    have : s = [] := List.length_eq_zero.mp (by omega)
    subst this
    simp [stripFrom, removeEscapesAux]
  | succ fuel ih =>
    cases s with
    | nil => simp [stripFrom, removeEscapesAux]
    | cons c cs =>
      have hlen : cs.length ≤ fuel := by simpa using h
      unfold removeEscapesAux
      rw [stripFrom]
      by_cases h1 : c = ESC
      · simp only [h1, if_true]
        rw [stripFrom_true]
        exact ih _ (le_trans (dropThroughLetter_length_le cs) hlen)
      · simp only [h1, if_false, Bool.false_eq_true]
        rw [ih cs hlen]

/-! ## Colour rows and `stripANSI` -/

theorem stripFrom_true_append (ds rest : List UInt8) (h : ∀ c ∈ ds, isLetter c = false) :
    stripFrom true (ds ++ rest) = stripFrom true rest := by
  induction ds with
  | nil => rfl
  | cons d ds ih =>
    have hd : isLetter d = false := h d (List.mem_cons_self d ds)
    have hds : ∀ c ∈ ds, isLetter c = false := fun c hc => h c (List.mem_cons_of_mem d hc)
    rw [List.cons_append, stripFrom]
    by_cases h1 : d = ESC
    · simp only [h1, if_true]
      exact ih hds
    · simp only [h1, hd, if_false, if_true, Bool.false_eq_true]
      exact ih hds

theorem fmtD_no_letter : ∀ n < 256, ∀ c ∈ fmtD n, isLetter c = false := by decide!

/-- Every glyph `toASCII` can select: the ramp characters, the space and `#`. -/
theorem glyphD_mem (ovf : ℚ → ℤ) (useBW : Bool) (p : ℕ × ℕ × ℕ)
    (hr : p.1 ≤ 255) (hg : p.2.1 ≤ 255) (hb : p.2.2 ≤ 255) :
    glyphD ovf useBW p ∈ (0x20 : UInt8) :: 0x23 :: grayRamp := by
  have h := glyph_eq_some ovf useBW p hr hg hb
  cases useBW with
  | true =>
    unfold glyph glyphOfGray at h
    simp only [if_true] at h
    split_ifs at h
    · rw [← Option.some.inj h]; simp
    · rw [← Option.some.inj h]; simp
  | false =>
    unfold glyph glyphOfGray byteAt at h
    simp only [Bool.false_eq_true, if_false] at h
    split_ifs at h
    have := List.get?_mem h
    exact List.mem_cons_of_mem _ (List.mem_cons_of_mem _ this)

theorem glyph_set_props : ∀ c ∈ (0x20 : UInt8) :: 0x23 :: grayRamp, c ≠ ESC ∧ c < 0x80 := by
  decide

theorem stripFrom_colorCell (r g b : ℕ) (ch : UInt8) (rest : List UInt8)
    (hr : r ≤ 255) (hg : g ≤ 255) (hb : b ≤ 255) (h1 : ch ≠ ESC) (h2 : ch < 0x80) :
    stripFrom false (colorCell r g b ch ++ rest) = ch :: stripFrom false rest := by
  have e : colorCell r g b ch ++ rest
      = ESC :: (([0x5b, 0x33, 0x38, 0x3b, 0x32, 0x3b] ++ fmtD r ++ [0x3b] ++ fmtD g ++ [0x3b]
          ++ fmtD b) ++ (0x6d :: ch :: rest)) := by
    simp [colorCell, fmtC, h2]
  have hpre : ∀ c ∈ ([0x5b, 0x33, 0x38, 0x3b, 0x32, 0x3b] : List UInt8) ++ fmtD r ++ [0x3b]
      ++ fmtD g ++ [0x3b] ++ fmtD b, isLetter c = false := by
    intro c hc
    simp only [List.mem_append] at hc
    rcases hc with ((((hc | hc) | hc) | hc) | hc) | hc
    · revert c; decide
    · exact fmtD_no_letter r (by omega) c hc
    · revert c; decide
    · exact fmtD_no_letter g (by omega) c hc
    · revert c; decide
    · exact fmtD_no_letter b (by omega) c hc
  rw [e, stripFrom]
  simp only [if_true]
  rw [stripFrom_true_append _ _ hpre, stripFrom]
  have hm : isLetter 0x6d = true := by decide
  have hm' : (0x6d : UInt8) ≠ ESC := by decide
  simp only [hm', hm, if_true, if_false]
  rw [stripFrom]
  simp only [h1, if_false, Bool.false_eq_true]

theorem stripFrom_resetSeq : stripFrom false resetSeq = [] := by decide

/-- Stripping a colour row leaves exactly the glyphs of its cells. -/
theorem stripFrom_color_row (ovf : ℚ → ℤ) (useBW : Bool) (ps : List (ℕ × ℕ × ℕ))
    (hps : ∀ p ∈ ps, p.1 ≤ 255 ∧ p.2.1 ≤ 255 ∧ p.2.2 ≤ 255) :
    stripFrom false ((ps.map (cellBytes ovf true useBW)).flatten ++ resetSeq)
      = (ps.map (cellBytes ovf false useBW)).flatten := by
  induction ps with
  | nil => simpa using stripFrom_resetSeq
  | cons p ps ih =>
    obtain ⟨hr, hg, hb⟩ := hps p (List.mem_cons_self p ps)
    have hrest := ih (fun q hq => hps q (List.mem_cons_of_mem p hq))
    obtain ⟨g1, g2⟩ := glyph_set_props _ (glyphD_mem ovf useBW p hr hg hb)
    simp only [List.map_cons, List.flatten_cons, List.append_assoc]
    simp only [cellBytes, if_true, Bool.false_eq_true, if_false] at hrest ⊢
    rw [stripFrom_colorCell _ _ _ _ _ hr hg hb g1 g2, hrest]
    rfl

theorem charAt_map_map (f : ℕ → ℕ → UInt8) (m n x y : ℕ) (hy : y < m) (hx : x < n) :
    charAt ((List.range m).map (fun y => (List.range n).map (fun x => f x y))) x y
      = some (f x y) := by
  unfold charAt
  simp [List.get?_eq_getElem?, List.getElem?_map, List.getElem?_range hy, List.getElem?_range hx]

/-! ## Glyph selection -/

/-- In plain mode every byte of the output is the glyph of the sampled pixel. -/
theorem toASCII_plain_charAt (ovf : ℚ → ℤ) (img : Image) (targetWidth : ℤ) (useBW : Bool)
    (hw : img.Bounds.Dx ≠ 0) (hh : img.Bounds.Dy ≠ 0) :
    ∃ lines, toASCII ovf img targetWidth false useBW = some lines ∧
      (∀ line ∈ lines, ∀ c ∈ line, c ∈ (0x20 : UInt8) :: 0x23 :: grayRamp ∧
        ∃ p : ℕ × ℕ × ℕ, p.1 ≤ 255 ∧ p.2.1 ≤ 255 ∧ p.2.2 ≤ 255 ∧ c = glyphD ovf useBW p) ∧
      ∀ x y : ℕ, (x : ℤ) < targetWidth →
        (y : ℤ) < targetHeight ovf img.Bounds.Dx img.Bounds.Dy targetWidth →
        charAt lines x y = some (glyphD ovf useBW
          (sample ovf img (f64div (f64ofInt img.Bounds.Dx) (f64ofInt targetWidth))
            (f64div (f64ofInt img.Bounds.Dy)
              (f64ofInt (targetHeight ovf img.Bounds.Dx img.Bounds.Dy targetWidth))) x y)) := by
  refine ⟨_, toASCII_eq_some ovf img targetWidth false useBW hw hh, ?_, ?_⟩
  · intro line hline c hc
    rw [List.mem_map] at hline
    obtain ⟨y, -, rfl⟩ := hline
    simp only [cellBytes, Bool.false_eq_true, if_false, List.append_nil] at hc
    rw [flatten_map_singleton, List.mem_map] at hc
    obtain ⟨x, -, rfl⟩ := hc
    obtain ⟨h1, h2, h3⟩ := sample_le ovf img
      (f64div (f64ofInt img.Bounds.Dx) (f64ofInt targetWidth))
      (f64div (f64ofInt img.Bounds.Dy)
        (f64ofInt (targetHeight ovf img.Bounds.Dx img.Bounds.Dy targetWidth))) x y
    exact ⟨glyphD_mem ovf useBW _ h1 h2 h3, _, h1, h2, h3, rfl⟩
  · intro x y hx hy
    simp only [cellBytes, Bool.false_eq_true, if_false, List.append_nil]
    simp only [flatten_map_singleton]
    exact charAt_map_map _ _ _ x y (by omega) (by omega)

theorem glyphD_bw (ovf : ℚ → ℤ) (p : ℕ × ℕ × ℕ) :
    glyphD ovf true p = if gray p.1 p.2.1 p.2.2 > 127 then 0x20 else 0x23 := by
  unfold glyphD glyph glyphOfGray
  simp only [if_true]
  split_ifs <;> rfl

theorem f64ofInt_nine : f64ofInt ((grayRamp.length : ℤ) - 1) = 9 := by decide!

theorem glyphD_ramp (ovf : ℚ → ℤ) (p : ℕ × ℕ × ℕ)
    (hr : p.1 ≤ 255) (hg : p.2.1 ≤ 255) (hb : p.2.2 ≤ 255) :
    ∃ i : ℕ, (i : ℤ) = ⌊f64mul (f64div (gray p.1 p.2.1 p.2.2) 255) 9⌋ ∧ i < 10 ∧
      grayRamp.get? i = some (glyphD ovf false p) := by
  have h := glyph_eq_some ovf false p hr hg hb
  obtain ⟨he, h0, h9⟩ := rampIndex_spec ovf (gray_nonneg p.1 p.2.1 p.2.2) (gray_le_255 hr hg hb)
  rw [f64ofInt_nine] at he
  unfold glyph glyphOfGray byteAt at h
  simp only [Bool.false_eq_true, if_false, if_pos h0] at h
  refine ⟨(rampIndex ovf (gray p.1 p.2.1 p.2.2)).toNat, ?_, by omega, h⟩
  rw [Int.toNat_of_nonneg h0, he]

/-! ## Rounding error -/

theorem f64_sub_abs_le {q : ℚ} (hq : 0 < q) : |f64 q - q| ≤ q / 2 ^ (53 : ℕ) := by
  have hu := ulp_pos q
  have hs := (scaled_bounds hq).1
  have hr := roundHalfEven_sub_le (q / ulp q)
  rw [le_div_iff₀ hu] at hs
  have e : f64 q - q = ((roundHalfEven (q / ulp q) : ℚ) - q / ulp q) * ulp q := by
    rw [f64_of_pos hq]
    field_simp
  rw [e, abs_mul, abs_of_pos hu]
  calc |(roundHalfEven (q / ulp q) : ℚ) - q / ulp q| * ulp q ≤ 1 / 2 * ulp q :=
        mul_le_mul_of_nonneg_right hr (le_of_lt hu)
    _ ≤ q / 2 ^ (53 : ℕ) := by
        rw [le_div_iff₀ (by positivity)]
        have : (2 : ℚ) ^ (53 : ℕ) = 2 * 2 ^ (52 : ℕ) := by norm_num
        rw [this]
        linarith

theorem f64_le_mul {q : ℚ} (hq : 0 ≤ q) : f64 q ≤ (1 + 1 / 2 ^ (53 : ℕ)) * q := by
  rcases eq_or_lt_of_le hq with h | h
  · rw [← h, f64_zero]; simp
  · have := (abs_le.mp (f64_sub_abs_le h)).2
    linarith

theorem mul_le_f64 {q : ℚ} (hq : 0 ≤ q) : (1 - 1 / 2 ^ (53 : ℕ)) * q ≤ f64 q := by
  rcases eq_or_lt_of_le hq with h | h
  · rw [← h, f64_zero]; simp
  · have := (abs_le.mp (f64_sub_abs_le h)).1
    linarith

/-- The computed luminance is at most the exact weighted sum enlarged by the
accumulated rounding error. -/
theorem gray_le_exact (r g b : ℕ) :
    gray r g b ≤ (1 + 1 / 2 ^ (50 : ℕ)) * ((299 * r + 587 * g + 114 * b : ℚ) / 1000) := by
  have hr : (0 : ℚ) ≤ r := Nat.cast_nonneg r
  have hg : (0 : ℚ) ≤ g := Nat.cast_nonneg g
  have hb : (0 : ℚ) ≤ b := Nat.cast_nonneg b
  have xr : f64ofInt r ≤ (1 + 1 / 2 ^ (53 : ℕ)) * r := by
    unfold f64ofInt; push_cast; exact f64_le_mul hr
  have xg : f64ofInt g ≤ (1 + 1 / 2 ^ (53 : ℕ)) * g := by
    unfold f64ofInt; push_cast; exact f64_le_mul hg
  have xb : f64ofInt b ≤ (1 + 1 / 2 ^ (53 : ℕ)) * b := by
    unfold f64ofInt; push_cast; exact f64_le_mul hb
  have nr := f64ofInt_nonneg r
  have ng := f64ofInt_nonneg g
  have nb := f64ofInt_nonneg b
  have k1 : c299 ≤ (1 + 1 / 2 ^ (53 : ℕ)) * (299 / 1000) := f64_le_mul (by norm_num)
  have k2 : c587 ≤ (1 + 1 / 2 ^ (53 : ℕ)) * (587 / 1000) := f64_le_mul (by norm_num)
  have k3 : c114 ≤ (1 + 1 / 2 ^ (53 : ℕ)) * (114 / 1000) := f64_le_mul (by norm_num)
  have t1 : c299 * f64ofInt r
      ≤ (1 + 1 / 2 ^ (53 : ℕ)) * (299 / 1000) * ((1 + 1 / 2 ^ (53 : ℕ)) * r) :=
    mul_le_mul k1 xr nr (by positivity)
  have t2 : c587 * f64ofInt g
      ≤ (1 + 1 / 2 ^ (53 : ℕ)) * (587 / 1000) * ((1 + 1 / 2 ^ (53 : ℕ)) * g) :=
    mul_le_mul k2 xg ng (by positivity)
  have t3 : c114 * f64ofInt b
      ≤ (1 + 1 / 2 ^ (53 : ℕ)) * (114 / 1000) * ((1 + 1 / 2 ^ (53 : ℕ)) * b) :=
    mul_le_mul k3 xb nb (by positivity)
  have m1 := mul_nonneg c299_nonneg nr
  have m2 := mul_nonneg c587_nonneg ng
  have m3 := mul_nonneg c114_nonneg nb
  have p1 := f64_le_mul m1
  have p2 := f64_le_mul m2
  have p3 := f64_le_mul m3
  have q1 := f64_nonneg m1
  have q2 := f64_nonneg m2
  have q3 := f64_nonneg m3
  have s1 := f64_le_mul (add_nonneg q1 q2)
  have s0 := f64_nonneg (add_nonneg q1 q2)
  have s2 := f64_le_mul (add_nonneg s0 q3)
  unfold gray f64add f64mul
  norm_num at *
  linarith

/-- The computed luminance is at least the exact weighted sum reduced by the
accumulated rounding error. -/
theorem exact_le_gray (r g b : ℕ) :
    (1 - 1 / 2 ^ (50 : ℕ)) * ((299 * r + 587 * g + 114 * b : ℚ) / 1000) ≤ gray r g b := by
  have hr : (0 : ℚ) ≤ r := Nat.cast_nonneg r
  have hg : (0 : ℚ) ≤ g := Nat.cast_nonneg g
  have hb : (0 : ℚ) ≤ b := Nat.cast_nonneg b
  have xr : (1 - 1 / 2 ^ (53 : ℕ)) * r ≤ f64ofInt r := by
    unfold f64ofInt; push_cast; exact mul_le_f64 hr
  have xg : (1 - 1 / 2 ^ (53 : ℕ)) * g ≤ f64ofInt g := by
    unfold f64ofInt; push_cast; exact mul_le_f64 hg
  have xb : (1 - 1 / 2 ^ (53 : ℕ)) * b ≤ f64ofInt b := by
    unfold f64ofInt; push_cast; exact mul_le_f64 hb
  have nr := f64ofInt_nonneg r
  have ng := f64ofInt_nonneg g
  have nb := f64ofInt_nonneg b
  have k1 : (1 - 1 / 2 ^ (53 : ℕ)) * (299 / 1000) ≤ c299 := mul_le_f64 (by norm_num)
  have k2 : (1 - 1 / 2 ^ (53 : ℕ)) * (587 / 1000) ≤ c587 := mul_le_f64 (by norm_num)
  have k3 : (1 - 1 / 2 ^ (53 : ℕ)) * (114 / 1000) ≤ c114 := mul_le_f64 (by norm_num)
  have t1 : (1 - 1 / 2 ^ (53 : ℕ)) * (299 / 1000) * ((1 - 1 / 2 ^ (53 : ℕ)) * r)
      ≤ c299 * f64ofInt r :=
    mul_le_mul k1 xr (by positivity) c299_nonneg
  have t2 : (1 - 1 / 2 ^ (53 : ℕ)) * (587 / 1000) * ((1 - 1 / 2 ^ (53 : ℕ)) * g)
      ≤ c587 * f64ofInt g :=
    mul_le_mul k2 xg (by positivity) c587_nonneg
  have t3 : (1 - 1 / 2 ^ (53 : ℕ)) * (114 / 1000) * ((1 - 1 / 2 ^ (53 : ℕ)) * b)
      ≤ c114 * f64ofInt b :=
    mul_le_mul k3 xb (by positivity) c114_nonneg
  have m1 := mul_nonneg c299_nonneg nr
  have m2 := mul_nonneg c587_nonneg ng
  have m3 := mul_nonneg c114_nonneg nb
  have p1 := mul_le_f64 m1
  have p2 := mul_le_f64 m2
  have p3 := mul_le_f64 m3
  have q1 := f64_nonneg m1
  have q2 := f64_nonneg m2
  have q3 := f64_nonneg m3
  have s1 := mul_le_f64 (add_nonneg q1 q2)
  have s0 := f64_nonneg (add_nonneg q1 q2)
  have s2 := mul_le_f64 (add_nonneg s0 q3)
  unfold gray f64add f64mul
  norm_num at *
  linarith


/-- Integers below `2^53` are binary64 values: converting them is exact. -/
theorem f64_natCast (n : ℕ) (h : n < 2 ^ 53) : f64 (n : ℚ) = n := by
  rcases Nat.eq_zero_or_pos n with h0 | h0
  · subst h0
    simpa using f64_zero
  · have hq : (0 : ℚ) < n := by exact_mod_cast h0
    obtain ⟨b1, -⟩ := binExp_spec (n : ℚ) (ne_of_gt hq)
    rw [abs_of_pos hq] at b1
    have hlt : (2 : ℚ) ^ binExp (n : ℚ) < 2 ^ (53 : ℤ) := by
      refine lt_of_le_of_lt b1 ?_
      calc (n : ℚ) < (2 : ℚ) ^ (53 : ℕ) := by exact_mod_cast h
        _ = 2 ^ (53 : ℤ) := by norm_num
    rw [zpow_lt_zpow_iff_right₀ (by norm_num)] at hlt
    have hu : ulp (n : ℚ) = ((2 : ℚ) ^ (52 - binExp (n : ℚ)).toNat)⁻¹ := by
      unfold ulp
      rw [← zpow_natCast, ← zpow_neg, Int.toNat_of_nonneg (by omega)]
      congr 1
      ring
    have hx : (n : ℚ) / ulp (n : ℚ)
        = (((n : ℤ) * 2 ^ (52 - binExp (n : ℚ)).toNat : ℤ) : ℚ) := by
      rw [hu]
      push_cast
      field_simp
    rw [f64_of_pos hq, hx, roundHalfEven_intCast, hu]
    push_cast
    field_simp

theorem f64ofInt_natCast (n : ℕ) (h : n < 2 ^ 53) : f64ofInt (n : ℤ) = n := by
  unfold f64ofInt
  exact_mod_cast f64_natCast n h

theorem c299_eq : c299 = 5386305154335113 / 18014398509481984 := by decide!

theorem c587_eq : c587 = 2643612981266481 / 4503599627370496 := by decide!

theorem c114_eq : c114 = 8214565720323785 / 72057594037927936 := by decide!

theorem gray_eq_grayLit (r g b : ℕ) (hr : r ≤ 255) (hg : g ≤ 255) (hb : b ≤ 255) :
    gray r g b = grayLit r g b := by
  unfold gray grayLit
  rw [c299_eq, c587_eq, c114_eq, f64ofInt_natCast r (by omega), f64ofInt_natCast g (by omega),
    f64ofInt_natCast b (by omega)]

theorem boundaryAll_true : boundaryAll = true := by
  decide!

/-- A pixel whose exact luminance is 127 has a computed luminance of at most 127. -/
theorem gray_boundary (r g b : ℕ) (hr : r ≤ 255) (hg : g ≤ 255) (hb : b ≤ 255)
    (h : 299 * r + 587 * g + 114 * b = 127000) : gray r g b ≤ 127 := by
  have hall := boundaryAll_true
  unfold boundaryAll at hall
  rw [List.all_eq_true] at hall
  have h1 := hall r (List.mem_range.mpr (by omega))
  rw [List.all_eq_true] at h1
  have h2 := h1 (g / 114) (List.mem_range.mpr (by omega))
  unfold boundaryCheck at h2
  have hgm : (74 + 83 * r) % 114 + 114 * (g / 114) = g := by omega
  have hn : 127000 - 299 * r - 587 * g = 114 * b := by omega
  simp only [hgm, hn] at h2
  have hd : 114 * b / 114 = b := by omega
  have hm : 114 * b % 114 = 0 := by omega
  rw [hd, hm] at h2
  rw [if_pos ⟨by omega, by omega, rfl, by omega⟩] at h2
  rw [gray_eq_grayLit r g b hr hg hb]
  exact of_decide_eq_true h2

/-- On 8-bit channels the computed luminance exceeds 127 exactly when the exact
weighted sum `0.299 R + 0.587 G + 0.114 B = (299 R + 587 G + 114 B) / 1000` does. -/
theorem gray_gt_127_iff (r g b : ℕ) (hr : r ≤ 255) (hg : g ≤ 255) (hb : b ≤ 255) :
    gray r g b > 127 ↔ (299 * (r : ℚ) + 587 * (g : ℚ) + 114 * (b : ℚ)) / 1000 > 127 := by
  have hup := gray_le_exact r g b
  have hlo := exact_le_gray r g b
  have hS : (299 * (r : ℚ) + 587 * (g : ℚ) + 114 * (b : ℚ)) / 1000 > 127
      ↔ 127000 < 299 * r + 587 * g + 114 * b := by
    rw [← Nat.cast_lt (α := ℚ)]
    push_cast
    constructor <;> intro h <;> norm_num at h ⊢ <;> linarith
  rw [hS]
  constructor
  · intro hgt
    by_contra hle
    rcases Nat.lt_or_ge (299 * r + 587 * g + 114 * b) 127000 with hlt | hge
    · have hq : (299 * r + 587 * g + 114 * b : ℚ) ≤ 126999 := by
        have : 299 * r + 587 * g + 114 * b ≤ 126999 := by omega
        exact_mod_cast this
      norm_num at hup
      linarith
    · have heq : 299 * r + 587 * g + 114 * b = 127000 := by omega
      have := gray_boundary r g b hr hg hb heq
      linarith
  · intro hlt
    have hq : (127001 : ℚ) ≤ 299 * r + 587 * g + 114 * b := by
      have : 127001 ≤ 299 * r + 587 * g + 114 * b := by omega
      exact_mod_cast this
    norm_num at hlo
    show (127 : ℚ) < gray r g b
    linarith

/-! ## `writeOutput` -/

theorem foldl_append_lines (f : List UInt8 → List UInt8) (lines : List (List UInt8))
    (b0 : List UInt8) :
    lines.foldl (fun b l => b ++ f l ++ [0x0a]) b0
      = b0 ++ (lines.map (fun l => f l ++ [0x0a])).flatten := by
  induction lines generalizing b0 with
  | nil => simp
  | cons l ls ih =>
    rw [List.foldl_cons, ih]
    simp [List.append_assoc]

/-- In Markdown mode the text is the fence, the stripped lines each followed by a
newline, and the fence again. -/
theorem writeOutput_markdown (lines : List (List UInt8)) :
    writeOutput lines true
      = fence ++ (lines.map (fun l => stripANSI l ++ [0x0a])).flatten ++ fence := by
  unfold writeOutput
  simp only [if_true]
  rw [foldl_append_lines stripANSI lines fence]

theorem stripFrom_sublist (inEsc : Bool) (s : List UInt8) : (stripFrom inEsc s).Sublist s := by
  induction s generalizing inEsc with
  | nil => simp [stripFrom]
  | cons c cs ih =>
    unfold stripFrom
    split_ifs
    · exact (ih true).cons c
    · exact (ih false).cons c
    · exact (ih true).cons c
    · exact (ih false).cons₂ c

theorem stripFrom_true_no_letter (s : List UInt8) (h : ∀ c ∈ s, isLetter c = false) :
    stripFrom true s = [] := by
  have := stripFrom_true_append s [] h
  simpa [stripFrom] using this

theorem stripFrom_append_esc (inEsc : Bool) (pre suf : List UInt8)
    (h : ∀ c ∈ suf, isLetter c = false) :
    stripFrom inEsc (pre ++ ESC :: suf) = stripFrom inEsc pre := by
  induction pre generalizing inEsc with
  | nil =>
    have e1 : stripFrom inEsc [] = [] := by cases inEsc <;> rfl
    have e2 : stripFrom inEsc (ESC :: suf) = stripFrom true suf := by
      conv_lhs => rw [stripFrom]
      rw [if_pos rfl]
    rw [List.nil_append, e1, e2, stripFrom_true_no_letter suf h]
  | cons c cs ih =>
    rw [List.cons_append, stripFrom, stripFrom]
    split_ifs
    · exact ih true
    · exact ih false
    · exact ih true
    · rw [ih false]

/-! ## Animation timing and the display loop -/

theorem frameDurations_eq_map (delays : List ℤ) :
    frameDurations delays = delays.map frameDuration := by
  unfold frameDurations
  have h : ∀ (l acc : List ℤ),
      l.foldl (fun acc d => acc ++ [frameDuration d]) acc = acc ++ l.map frameDuration := by
    intro l
    induction l with
    | nil => intro acc; simp
    | cons d ds ih => intro acc; rw [List.foldl_cons, ih]; simp
  simpa using h delays []

theorem frameDuration_eq (d : ℤ) :
    frameDuration d = if 0 < d then (10 * d) * Millisecond else 50 * Millisecond := by
  unfold frameDuration Millisecond
  simp only []
  split_ifs <;> omega

/-- With no frame-rate override the wait is the duration stored for frame `i mod len`. -/
theorem tick_no_fps (fps : ℤ) (durations : List ℤ) (i : ℕ) (hfps : fps ≤ 0)
    (hne : durations ≠ []) :
    tick fps durations (i : ℤ) = durations.get? (i % durations.length) := by
  have hlen : durations.length ≠ 0 := fun h => hne (List.length_eq_zero.mp h)
  unfold tick durationAt
  rw [if_neg (by omega), if_neg hlen, ← Int.ofNat_tmod, if_pos (Int.ofNat_nonneg _)]
  rfl

theorem tick_fps (fps : ℤ) (durations : List ℤ) (i : ℤ) (hfps : 0 < fps) :
    tick fps durations i = some (Int.tdiv Second fps) := by
  unfold tick
  rw [if_pos hfps]

theorem tick_eq_some (fps : ℤ) (durations : List ℤ) (i : ℕ)
    (hd : 0 < fps ∨ durations ≠ []) : ∃ d, tick fps durations (i : ℤ) = some d := by
  by_cases hfps : 0 < fps
  · exact ⟨_, tick_fps fps durations i hfps⟩
  · have hne : durations ≠ [] := hd.resolve_left hfps
    have hlen : 0 < durations.length := List.length_pos.mpr hne
    have hlt : i % durations.length < durations.length := Nat.mod_lt _ hlen
    exact ⟨durations.get ⟨_, hlt⟩, by
      rw [tick_no_fps fps durations i (by omega) hne, List.get?_eq_get hlt]⟩

/-- While the loop has not been left, iteration `k` prints frame `k mod n`. -/
theorem animRun_running (fps : ℤ) (durations : List ℤ) (n : ℕ) (loop : Bool)
    (hn : 1 ≤ n) (hd : 0 < fps ∨ durations ≠ []) (k : ℕ) (hk : loop = true ∨ k ≤ n) :
    (animRun fps durations n loop k).i = k ∧
    (animRun fps durations n loop k).shown = (List.range k).map (fun j : ℕ => ((j % n : ℕ) : ℤ)) ∧
    (animRun fps durations n loop k).slept.length = k ∧
    (animRun fps durations n loop k).panicked = false ∧
    (animRun fps durations n loop k).exited = (!loop && decide (n ≤ k)) := by
  induction k with
  | zero =>
    refine ⟨rfl, rfl, rfl, rfl, ?_⟩
    have : ¬ n ≤ 0 := by omega
    simp [animRun, animInit, this]
  | succ k ih =>
    have hk' : loop = true ∨ k ≤ n := by
      rcases hk with h | h
      · exact Or.inl h
      · exact Or.inr (by omega)
    obtain ⟨h1, h2, h3, h4, h5⟩ := ih hk'
    have hex : (animRun fps durations n loop k).exited = false := by
      rw [h5]
      rcases hk with h | h
      · simp [h]
      · have : ¬ n ≤ k := by omega
        simp [this]
    obtain ⟨d, hd'⟩ := tick_eq_some fps durations k hd
    have hmod : Int.tmod (k : ℤ) (n : ℤ) = ((k % n : ℕ) : ℤ) := (Int.ofNat_tmod k n).symm
    have hlt : k % n < n := Nat.mod_lt _ (by omega)
    have hstep : animRun fps durations n loop (k + 1)
        = { i := (k : ℤ) + 1,
            shown := (animRun fps durations n loop k).shown ++ [((k % n : ℕ) : ℤ)],
            slept := (animRun fps durations n loop k).slept ++ [d],
            exited := !loop && decide ((n : ℤ) ≤ (k : ℤ) + 1), panicked := false } := by
      show animStep fps durations n loop (animRun fps durations n loop k) = _
      unfold animStep
      rw [if_neg (by simp [hex, h4]), if_neg (by omega)]
      simp only [h1, hmod]
      have hlt' : ((k % n : ℕ) : ℤ) < (n : ℤ) := by exact_mod_cast hlt
      have hge' : (0 : ℤ) ≤ ((k % n : ℕ) : ℤ) := Int.ofNat_nonneg _
      rw [if_neg (by rw [not_or]; exact ⟨not_lt.mpr hge', not_le.mpr hlt'⟩), hd']
    rw [hstep]
    refine ⟨by push_cast; rfl, ?_, ?_, rfl, ?_⟩
    · simp only [h2, List.range_succ, List.map_append, List.map_cons, List.map_nil]
    · simp [h3]
    · show (!loop && decide ((n : ℤ) ≤ (k : ℤ) + 1)) = (!loop && decide (n ≤ k + 1))
      have hiff : ((n : ℤ) ≤ (k : ℤ) + 1) ↔ n ≤ k + 1 := by omega
      simp only [hiff]

theorem animRun_exited (fps : ℤ) (durations : List ℤ) (n : ℕ) (loop : Bool) (k m : ℕ)
    (h : (animRun fps durations n loop k).exited = true) :
    animRun fps durations n loop (k + m) = animRun fps durations n loop k := by
  induction m with
  | zero => rfl
  | succ m ih =>
    show animStep fps durations n loop (animRun fps durations n loop (k + m)) = _
    rw [ih]
    unfold animStep
    rw [if_pos (Or.inl h)]

/-! ## Colour lines -/

theorem fmtD_no_esc : ∀ n < 256, ∀ c ∈ fmtD n, c ≠ ESC := by decide!

theorem colorCell_shape (r g b : ℕ) (ch : UInt8) (h : ch < 0x80) :
    colorCell r g b ch
      = [ESC, 0x5b, 0x33, 0x38, 0x3b, 0x32, 0x3b] ++ fmtD r ++ [0x3b] ++ fmtD g ++ [0x3b]
        ++ fmtD b ++ [0x6d, ch] := by
  simp [colorCell, fmtC, h]

/-- A colour cell is ESC, `[`, `3` and a tail without ESC. -/
theorem colorCell_tail (r g b : ℕ) (ch : UInt8) (hr : r ≤ 255) (hg : g ≤ 255) (hb : b ≤ 255)
    (h1 : ch ≠ ESC) (h2 : ch < 0x80) :
    ∃ t, colorCell r g b ch = ESC :: 0x5b :: 0x33 :: t ∧ ESC ∉ t := by
  refine ⟨[0x38, 0x3b, 0x32, 0x3b] ++ fmtD r ++ [0x3b] ++ fmtD g ++ [0x3b] ++ fmtD b
    ++ [0x6d, ch], ?_, ?_⟩
  · rw [colorCell_shape r g b ch h2]
    simp
  · intro hmem
    simp only [List.mem_append] at hmem
    rcases hmem with (((((hc | hc) | hc) | hc) | hc) | hc) | hc
    · revert hc; decide
    · exact fmtD_no_esc r (by omega) _ hc rfl
    · revert hc; decide
    · exact fmtD_no_esc g (by omega) _ hc rfl
    · revert hc; decide
    · exact fmtD_no_esc b (by omega) _ hc rfl
    · simp only [List.mem_cons, List.mem_singleton, List.not_mem_nil, or_false] at hc
      rcases hc with hc | hc
      · revert hc; decide
      · exact h1 hc.symm

theorem skip_no_esc (b pre X rest : List UInt8) (hb : ESC ∉ b)
    (h : pre ++ ESC :: X = b ++ rest) : ∃ pre', pre = b ++ pre' ∧ pre' ++ ESC :: X = rest := by
  induction b generalizing pre with
  | nil => exact ⟨pre, rfl, h⟩
  | cons b0 bs ih =>
    have hb0 : b0 ≠ ESC := fun e => hb (e ▸ List.mem_cons_self b0 bs)
    have hbs : ESC ∉ bs := fun m => hb (List.mem_cons_of_mem b0 m)
    cases pre with
    | nil =>
      rw [List.nil_append, List.cons_append] at h
      exact absurd (List.cons.inj h).1.symm hb0
    | cons p ps =>
      rw [List.cons_append, List.cons_append] at h
      obtain ⟨e1, e2⟩ := List.cons.inj h
      obtain ⟨pre', h1, h2⟩ := ih ps hbs e2
      exact ⟨pre', by rw [e1, h1]; rfl, h2⟩

/-- In a row of colour cells followed by the reset sequence, the reset sequence
occurs only as the final four bytes. -/
theorem reset_only_at_end (cells : List (List UInt8))
    (hc : ∀ c ∈ cells, ∃ t, c = ESC :: 0x5b :: 0x33 :: t ∧ ESC ∉ t)
    (pre suf : List UInt8) (h : pre ++ resetSeq ++ suf = cells.flatten ++ resetSeq) :
    suf = [] := by
  induction cells generalizing pre with
  | nil =>
    have hl := congrArg List.length h
    simp only [List.length_append, List.flatten_nil, List.length_nil] at hl
    exact List.length_eq_zero.mp (by omega)
  | cons c cs ih =>
    obtain ⟨t, rfl, ht⟩ := hc c (List.mem_cons_self c cs)
    have hcs : ∀ c' ∈ cs, ∃ t, c' = ESC :: 0x5b :: 0x33 :: t ∧ ESC ∉ t :=
      fun c' hc' => hc c' (List.mem_cons_of_mem _ hc')
    cases pre with
    | nil =>
      exfalso
      simp only [resetSeq, List.nil_append, List.flatten_cons, List.cons_append] at h
      have h3 := (List.cons.inj (List.cons.inj (List.cons.inj h).2).2).1
      revert h3
      decide
    | cons p ps =>
      simp only [List.flatten_cons, List.cons_append, List.append_assoc] at h
      obtain ⟨-, e2⟩ := List.cons.inj h
      have hb : ESC ∉ (0x5b : UInt8) :: 0x33 :: t := by
        intro hm
        rcases List.mem_cons.mp hm with h' | h'
        · revert h'; decide
        · rcases List.mem_cons.mp h' with h'' | h''
          · revert h''; decide
          · exact ht h''
      have e3 : ps ++ ESC :: ([0x5b, 0x30, 0x6d] ++ suf)
          = ((0x5b : UInt8) :: 0x33 :: t) ++ (cs.flatten ++ resetSeq) := by
        simpa [resetSeq] using e2
      obtain ⟨pre', -, h2⟩ := skip_no_esc _ ps _ _ hb e3
      apply ih hcs pre'
      simpa [resetSeq] using h2

/-! ## Sampling coordinates -/

theorem f64ofInt_of_nonneg_small (n : ℤ) (h0 : 0 ≤ n) (h1 : n < 2 ^ 53) : f64ofInt n = n := by
  obtain ⟨m, rfl⟩ := Int.eq_ofNat_of_zero_le h0
  have hm : m < 2 ^ 53 := by exact_mod_cast h1
  rw [f64ofInt_natCast m hm]
  simp

/-- For a loop index `i < n <= 2^50` and an extent within the range of `int`, the
sampled coordinate `int(float64(i) * (float64(extent) / float64(n)))` lies in
`0 .. extent - 1`. -/
theorem srcCoord_bounds (ovf : ℚ → ℤ) (i : ℕ) (extent n : ℤ)
    (he1 : 1 ≤ extent) (he2 : extent < 2 ^ 63) (hn2 : n ≤ 2 ^ 50) (hi : (i : ℤ) < n) :
    0 ≤ srcCoord ovf i (f64div (f64ofInt extent) (f64ofInt n)) ∧
      srcCoord ovf i (f64div (f64ofInt extent) (f64ofInt n)) < extent := by
  have hi0 : (0 : ℤ) ≤ (i : ℤ) := Int.ofNat_nonneg i
  have hn1 : 1 ≤ n := by omega
  have hX : f64ofInt (i : ℤ) = (i : ℚ) := by
    rw [f64ofInt_of_nonneg_small _ hi0 (by omega)]
    simp
  have hT : f64ofInt n = (n : ℚ) := f64ofInt_of_nonneg_small n (by omega) (by omega)
  have hiq : (0 : ℚ) ≤ i := Nat.cast_nonneg i
  have hnq : (1 : ℚ) ≤ n := by exact_mod_cast hn1
  have hnq2 : (n : ℚ) ≤ 2 ^ (50 : ℕ) := by exact_mod_cast hn2
  have hin : (i : ℚ) + 1 ≤ n := by exact_mod_cast (show (i : ℤ) + 1 ≤ n by omega)
  have heq : (1 : ℚ) ≤ extent := by exact_mod_cast he1
  have hW0 : 0 ≤ f64ofInt extent := f64_nonneg (by positivity)
  have hW : f64ofInt extent ≤ (1 + 1 / 2 ^ (53 : ℕ)) * extent := f64_le_mul (by positivity)
  have hq0 : 0 ≤ f64ofInt extent / n := div_nonneg hW0 (by positivity)
  have hs0 : 0 ≤ f64 (f64ofInt extent / n) := f64_nonneg hq0
  have hs : f64 (f64ofInt extent / n) ≤ (1 + 1 / 2 ^ (53 : ℕ)) * (f64ofInt extent / n) :=
    f64_le_mul hq0
  have hp0 : 0 ≤ (i : ℚ) * f64 (f64ofInt extent / n) := mul_nonneg hiq hs0
  have hv0 : 0 ≤ f64 ((i : ℚ) * f64 (f64ofInt extent / n)) := f64_nonneg hp0
  have hv : f64 ((i : ℚ) * f64 (f64ofInt extent / n))
      ≤ (1 + 1 / 2 ^ (53 : ℕ)) * ((i : ℚ) * f64 (f64ofInt extent / n)) := f64_le_mul hp0
  -- the accumulated bound
  have hq1 : f64ofInt extent / n ≤ (1 + 1 / 2 ^ (53 : ℕ)) * extent / n :=
    div_le_div_of_nonneg_right hW (by positivity)
  have hchain : f64 ((i : ℚ) * f64 (f64ofInt extent / n))
      ≤ (1 + 1 / 2 ^ (53 : ℕ)) * ((i : ℚ) * ((1 + 1 / 2 ^ (53 : ℕ))
          * ((1 + 1 / 2 ^ (53 : ℕ)) * extent / n))) := by
    refine le_trans hv ?_
    apply mul_le_mul_of_nonneg_left _ (by positivity)
    apply mul_le_mul_of_nonneg_left _ hiq
    refine le_trans hs ?_
    exact mul_le_mul_of_nonneg_left hq1 (by positivity)
  have hkey : (1 + 1 / 2 ^ (53 : ℕ)) ^ 3 * (i : ℚ) < n := by
    have h1 : (1 + 1 / 2 ^ (53 : ℕ) : ℚ) ^ 3 * (i : ℚ) ≤ (1 + 1 / 2 ^ (53 : ℕ)) ^ 3 * (n - 1) :=
      mul_le_mul_of_nonneg_left (by linarith) (by positivity)
    have h2 : (1 + 1 / 2 ^ (53 : ℕ) : ℚ) ^ 3 * (n - 1) < n := by
      norm_num
      linarith
    linarith
  have hbound : (1 + 1 / 2 ^ (53 : ℕ)) * ((i : ℚ) * ((1 + 1 / 2 ^ (53 : ℕ))
      * ((1 + 1 / 2 ^ (53 : ℕ)) * extent / n))) < extent := by
    have hpos : (0 : ℚ) < extent / n := div_pos (by linarith) (by linarith)
    have e : (1 + 1 / 2 ^ (53 : ℕ)) * ((i : ℚ) * ((1 + 1 / 2 ^ (53 : ℕ))
        * ((1 + 1 / 2 ^ (53 : ℕ)) * extent / n)))
        = ((1 + 1 / 2 ^ (53 : ℕ)) ^ 3 * (i : ℚ)) * ((extent : ℚ) / n) := by ring
    rw [e]
    calc ((1 + 1 / 2 ^ (53 : ℕ)) ^ 3 * (i : ℚ)) * ((extent : ℚ) / n)
        < (n : ℚ) * ((extent : ℚ) / n) := mul_lt_mul_of_pos_right hkey hpos
      _ = extent := by field_simp
  have hlt : f64 ((i : ℚ) * f64 (f64ofInt extent / n)) < extent := lt_of_le_of_lt hchain hbound
  have hfl0 : 0 ≤ ⌊f64 ((i : ℚ) * f64 (f64ofInt extent / n))⌋ := Int.floor_nonneg.mpr hv0
  have hfl1 : ⌊f64 ((i : ℚ) * f64 (f64ofInt extent / n))⌋ < extent := Int.floor_lt.mpr hlt
  have hsrc : srcCoord ovf i (f64div (f64ofInt extent) (f64ofInt n))
      = ⌊f64 ((i : ℚ) * f64 (f64ofInt extent / n))⌋ := by
    unfold srcCoord f64ToInt f64mul f64div
    simp only [hX, hT]
    rw [truncQ_of_nonneg hv0, if_pos]
    constructor <;> omega
  rw [hsrc]
  exact ⟨hfl0, hfl1⟩

/-! ## The computed values and the formulas over exact numbers -/

/-- The coordinate the source computes is the exact `floor(i * extent / n)`,
except that it may be one less when `n` divides `i * extent` (the `float64`
product can fall just below the integer). -/
theorem srcCoord_vs_exact (ovf : ℚ → ℤ) (i : ℕ) (extent n : ℤ)
    (he1 : 1 ≤ extent) (hi : (i : ℤ) < n) (hprod : extent * n ≤ 2 ^ 50) :
    srcCoord ovf i (f64div (f64ofInt extent) (f64ofInt n)) = specSrcCoord i extent n ∨
      (srcCoord ovf i (f64div (f64ofInt extent) (f64ofInt n)) = specSrcCoord i extent n - 1 ∧
        n ∣ (i : ℤ) * extent) := by
  have hi0 : (0 : ℤ) ≤ (i : ℤ) := Int.ofNat_nonneg i
  have hn1 : 1 ≤ n := by omega
  have hn50 : n ≤ 2 ^ 50 := by nlinarith
  have he50 : extent ≤ 2 ^ 50 := by nlinarith
  have hX : f64ofInt (i : ℤ) = (i : ℚ) := by
    rw [f64ofInt_of_nonneg_small _ hi0 (by omega)]
    simp
  have hT : f64ofInt n = (n : ℚ) := f64ofInt_of_nonneg_small n (by omega) (by omega)
  have hW : f64ofInt extent = (extent : ℚ) := f64ofInt_of_nonneg_small extent (by omega) (by omega)
  have hiq : (0 : ℚ) ≤ i := Nat.cast_nonneg i
  have hnq : (0 : ℚ) < n := by exact_mod_cast (show (0 : ℤ) < n by omega)
  have heq : (0 : ℚ) < extent := by exact_mod_cast (show (0 : ℤ) < extent by omega)
  -- the value computed and its distance from the exact quotient
  have hq0 : (0 : ℚ) ≤ extent / n := le_of_lt (div_pos heq hnq)
  have hs0 : 0 ≤ f64 ((extent : ℚ) / n) := f64_nonneg hq0
  have hs1 := f64_le_mul hq0
  have hs2 := mul_le_f64 hq0
  have hp0 : 0 ≤ (i : ℚ) * f64 ((extent : ℚ) / n) := mul_nonneg hiq hs0
  have hv0 : 0 ≤ f64 ((i : ℚ) * f64 ((extent : ℚ) / n)) := f64_nonneg hp0
  have hv1 := f64_le_mul hp0
  have hv2 := mul_le_f64 hp0
  have hup : f64 ((i : ℚ) * f64 ((extent : ℚ) / n)) * n
      ≤ (1 + 1 / 2 ^ (53 : ℕ)) * ((1 + 1 / 2 ^ (53 : ℕ)) * ((i : ℚ) * extent)) := by
    have h1 : (i : ℚ) * f64 ((extent : ℚ) / n) ≤ (i : ℚ) * ((1 + 1 / 2 ^ (53 : ℕ)) * (extent / n)) :=
      mul_le_mul_of_nonneg_left hs1 hiq
    have h2 : f64 ((i : ℚ) * f64 ((extent : ℚ) / n))
        ≤ (1 + 1 / 2 ^ (53 : ℕ)) * ((i : ℚ) * ((1 + 1 / 2 ^ (53 : ℕ)) * (extent / n))) :=
      le_trans hv1 (mul_le_mul_of_nonneg_left h1 (by positivity))
    have h3 := mul_le_mul_of_nonneg_right h2 (le_of_lt hnq)
    have e : (1 + 1 / 2 ^ (53 : ℕ)) * ((i : ℚ) * ((1 + 1 / 2 ^ (53 : ℕ)) * ((extent : ℚ) / n))) * n
        = (1 + 1 / 2 ^ (53 : ℕ)) * ((1 + 1 / 2 ^ (53 : ℕ)) * ((i : ℚ) * extent)) := by
      field_simp
      ring
    rw [e] at h3
    exact h3
  have hlo : (1 - 1 / 2 ^ (53 : ℕ)) * ((1 - 1 / 2 ^ (53 : ℕ)) * ((i : ℚ) * extent))
      ≤ f64 ((i : ℚ) * f64 ((extent : ℚ) / n)) * n := by
    have h1 : (i : ℚ) * ((1 - 1 / 2 ^ (53 : ℕ)) * (extent / n)) ≤ (i : ℚ) * f64 ((extent : ℚ) / n) :=
      mul_le_mul_of_nonneg_left hs2 hiq
    have h2 : (1 - 1 / 2 ^ (53 : ℕ)) * ((i : ℚ) * ((1 - 1 / 2 ^ (53 : ℕ)) * (extent / n)))
        ≤ f64 ((i : ℚ) * f64 ((extent : ℚ) / n)) :=
      le_trans (mul_le_mul_of_nonneg_left h1 (by norm_num)) hv2
    have h3 := mul_le_mul_of_nonneg_right h2 (le_of_lt hnq)
    have e : (1 - 1 / 2 ^ (53 : ℕ)) * ((i : ℚ) * ((1 - 1 / 2 ^ (53 : ℕ)) * ((extent : ℚ) / n))) * n
        = (1 - 1 / 2 ^ (53 : ℕ)) * ((1 - 1 / 2 ^ (53 : ℕ)) * ((i : ℚ) * extent)) := by
      field_simp
      ring
    rw [e] at h3
    exact h3
  have hsrc0 : srcCoord ovf i (f64div (f64ofInt extent) (f64ofInt n))
      = f64ToInt ovf (f64 ((i : ℚ) * f64 ((extent : ℚ) / n))) := by
    unfold srcCoord f64mul f64div
    simp only [hX, hT, hW]
  rw [hsrc0]
  -- the exact quotient and its floor `k`
  have hM50 : (i : ℤ) * extent ≤ 2 ^ 50 := by nlinarith
  have hMq : ((i : ℚ) * extent) ≤ 2 ^ (50 : ℕ) := by exact_mod_cast hM50
  have hMq0 : (0 : ℚ) ≤ (i : ℚ) * extent := by positivity
  have hk1q : (specSrcCoord i extent n : ℚ) * n ≤ (i : ℚ) * extent := by
    have := Int.floor_le (((i : ℚ) * extent) / n)
    rwa [le_div_iff₀ hnq] at this
  have hk2q' : (i : ℚ) * extent < ((specSrcCoord i extent n : ℚ) + 1) * n := by
    have := Int.lt_floor_add_one (((i : ℚ) * extent) / n)
    rwa [div_lt_iff₀ hnq] at this
  have hk1 : specSrcCoord i extent n * n ≤ (i : ℤ) * extent := by exact_mod_cast hk1q
  have hk2 : (i : ℤ) * extent < (specSrcCoord i extent n + 1) * n := by exact_mod_cast hk2q'
  have hk2q : (i : ℚ) * extent + 1 ≤ ((specSrcCoord i extent n : ℚ) + 1) * n := by
    exact_mod_cast (show (i : ℤ) * extent + 1 ≤ (specSrcCoord i extent n + 1) * n by omega)
  have hk0 : 0 ≤ specSrcCoord i extent n :=
    Int.floor_nonneg.mpr (div_nonneg hMq0 (le_of_lt hnq))
  have hkq0 : (0 : ℚ) ≤ (specSrcCoord i extent n : ℚ) := by exact_mod_cast hk0
  have hkNM : (specSrcCoord i extent n : ℚ) ≤ (specSrcCoord i extent n : ℚ) * n := by
    have h1 : (1 : ℚ) ≤ n := by exact_mod_cast hn1
    nlinarith
  -- name the quantities so that the remaining arithmetic is linear
  generalize f64 ((i : ℚ) * f64 ((extent : ℚ) / n)) = V at hv0 hup hlo ⊢
  generalize hKdef : (specSrcCoord i extent n : ℚ) = K at hk1q hk2q hkq0 hkNM
  generalize hMdef : (i : ℚ) * extent = M at hup hlo hMq hMq0 hk1q hk2q
  generalize hPdef : K * (n : ℚ) = P at hk1q hk2q hkNM
  have hexp : (K + 1) * (n : ℚ) = P + n := by rw [← hPdef]; ring
  rw [hexp] at hk2q
  have hlt : V * n < P + n := by
    refine lt_of_le_of_lt hup ?_
    norm_num at hMq ⊢
    linarith
  have hge1 : P - n ≤ V * n := by
    refine le_trans ?_ hlo
    norm_num at hMq ⊢
    linarith
  have hVlt : V < K + 1 := by
    rw [← mul_lt_mul_right hnq, hexp]
    exact hlt
  have hVge1 : K - 1 ≤ V := by
    rw [← mul_le_mul_right hnq]
    have : (K - 1) * (n : ℚ) = P - n := by rw [← hPdef]; ring
    rw [this]
    exact hge1
  have hfl_lt : ⌊V⌋ < specSrcCoord i extent n + 1 :=
    Int.floor_lt.mpr (by rw [← hKdef] at hVlt; exact_mod_cast hVlt)
  have hfl_ge : specSrcCoord i extent n - 1 ≤ ⌊V⌋ :=
    Int.le_floor.mpr (by rw [← hKdef] at hVge1; exact_mod_cast hVge1)
  have hfl0 : 0 ≤ ⌊V⌋ := Int.floor_nonneg.mpr hv0
  have hkle : specSrcCoord i extent n ≤ 2 ^ 50 := by nlinarith
  have hsrc : f64ToInt ovf V = ⌊V⌋ := by
    unfold f64ToInt
    simp only []
    rw [truncQ_of_nonneg hv0, if_pos]
    constructor <;> omega
  rw [hsrc]
  by_cases hdvd : n ∣ (i : ℤ) * extent
  · rcases Int.lt_or_le ⌊V⌋ (specSrcCoord i extent n) with h | h
    · exact Or.inr ⟨by omega, hdvd⟩
    · exact Or.inl (by omega)
  · left
    have hne : specSrcCoord i extent n * n ≠ (i : ℤ) * extent := by
      intro h
      exact hdvd (Dvd.intro_left _ h)
    have hk3 : specSrcCoord i extent n * n + 1 ≤ (i : ℤ) * extent := by omega
    have hk3q : P + 1 ≤ M := by
      rw [← hPdef, ← hKdef, ← hMdef]
      exact_mod_cast hk3
    have hge : P ≤ V * n := by
      refine le_trans ?_ hlo
      norm_num at hMq ⊢
      linarith
    have hVge : K ≤ V := by
      rw [← mul_le_mul_right hnq, hPdef]
      exact hge
    have : specSrcCoord i extent n ≤ ⌊V⌋ :=
      Int.le_floor.mpr (by rw [← hKdef] at hVge; exact_mod_cast hVge)
    omega

/-- The ramp index the source computes is the exact `floor((L / 255) * 9)`,
except that it may be one less when `(L / 255) * 9` is an integer (the `float64`
value can fall just below it). -/
theorem rampIndex_vs_exact (ovf : ℚ → ℤ) (r g b : ℕ)
    (hr : r ≤ 255) (hg : g ≤ 255) (hb : b ≤ 255) :
    rampIndex ovf (gray r g b) = specRampIndex r g b ∨
      (rampIndex ovf (gray r g b) = specRampIndex r g b - 1 ∧
        (85000 : ℤ) ∣ 3 * (299 * (r : ℤ) + 587 * (g : ℤ) + 114 * (b : ℤ))) := by
  obtain ⟨he, -, -⟩ := rampIndex_spec ovf (gray_nonneg r g b) (gray_le_255 hr hg hb)
  rw [f64ofInt_nine] at he
  rw [he]
  have hG0 := gray_nonneg r g b
  have hGu := gray_le_exact r g b
  have hGl := exact_le_gray r g b
  have hd0 : (0 : ℚ) ≤ gray r g b / 255 := div_nonneg hG0 (by norm_num)
  have hdu := f64_le_mul hd0
  have hdl := mul_le_f64 hd0
  have hdn := f64_nonneg hd0
  have hp0 : (0 : ℚ) ≤ f64 (gray r g b / 255) * 9 := mul_nonneg hdn (by norm_num)
  have hFu := f64_le_mul hp0
  have hFl := mul_le_f64 hp0
  have hF0 := f64_nonneg hp0
  -- the exact scaled luminance is `T / 85000` with `T = 3 * (299 r + 587 g + 114 b)`
  have hTle : 3 * (299 * (r : ℤ) + 587 * (g : ℤ) + 114 * (b : ℤ)) ≤ 765000 := by
    have h1 : (r : ℤ) ≤ 255 := by exact_mod_cast hr
    have h2 : (g : ℤ) ≤ 255 := by exact_mod_cast hg
    have h3 : (b : ℤ) ≤ 255 := by exact_mod_cast hb
    omega
  have hT0 : 0 ≤ 3 * (299 * (r : ℤ) + 587 * (g : ℤ) + 114 * (b : ℤ)) := by positivity
  have hE : ((299 * (r : ℚ) + 587 * (g : ℚ) + 114 * (b : ℚ)) / 1000 / 255) * 9
      = ((3 * (299 * (r : ℤ) + 587 * (g : ℤ) + 114 * (b : ℤ)) : ℤ) : ℚ) / 85000 := by
    push_cast
    ring
  have hk1q : (specRampIndex r g b : ℚ) * 85000
      ≤ ((3 * (299 * (r : ℤ) + 587 * (g : ℤ) + 114 * (b : ℤ)) : ℤ) : ℚ) := by
    have := Int.floor_le (((299 * (r : ℚ) + 587 * (g : ℚ) + 114 * (b : ℚ)) / 1000 / 255) * 9)
    rw [hE, le_div_iff₀ (by norm_num)] at this
    have hs : specRampIndex r g b
        = ⌊((3 * (299 * (r : ℤ) + 587 * (g : ℤ) + 114 * (b : ℤ)) : ℤ) : ℚ) / 85000⌋ := by
      rw [specRampIndex, hE]
    rw [hs]
    exact this
  have hk2q : ((3 * (299 * (r : ℤ) + 587 * (g : ℤ) + 114 * (b : ℤ)) : ℤ) : ℚ)
      < ((specRampIndex r g b : ℚ) + 1) * 85000 := by
    have := Int.lt_floor_add_one
      (((299 * (r : ℚ) + 587 * (g : ℚ) + 114 * (b : ℚ)) / 1000 / 255) * 9)
    rw [hE, div_lt_iff₀ (by norm_num)] at this
    have hs : specRampIndex r g b
        = ⌊((3 * (299 * (r : ℤ) + 587 * (g : ℤ) + 114 * (b : ℤ)) : ℤ) : ℚ) / 85000⌋ := by
      rw [specRampIndex, hE]
    rw [hs]
    exact this
  have hk1 : specRampIndex r g b * 85000
      ≤ 3 * (299 * (r : ℤ) + 587 * (g : ℤ) + 114 * (b : ℤ)) := by exact_mod_cast hk1q
  have hk2 : 3 * (299 * (r : ℤ) + 587 * (g : ℤ) + 114 * (b : ℤ))
      < (specRampIndex r g b + 1) * 85000 := by exact_mod_cast hk2q
  -- bounds on the computed value, in terms of `T`
  have hTq : ((3 * (299 * (r : ℤ) + 587 * (g : ℤ) + 114 * (b : ℤ)) : ℤ) : ℚ)
      = 3 * (299 * (r : ℚ) + 587 * (g : ℚ) + 114 * (b : ℚ)) := by push_cast; ring
  have hTleq : 3 * (299 * (r : ℚ) + 587 * (g : ℚ) + 114 * (b : ℚ)) ≤ 765000 := by
    rw [← hTq]; exact_mod_cast hTle
  have hT0q : (0 : ℚ) ≤ 3 * (299 * (r : ℚ) + 587 * (g : ℚ) + 114 * (b : ℚ)) := by positivity
  unfold f64mul f64div
  generalize f64 (f64 (gray r g b / 255) * 9) = F at hFu hFl hF0 ⊢
  generalize f64 (gray r g b / 255) = D at hdu hdl hdn hp0 hFu hFl
  generalize gray r g b = G at hG0 hGu hGl hd0 hdu hdl
  have hup : F * 85000 ≤ 3 * (299 * (r : ℚ) + 587 * (g : ℚ) + 114 * (b : ℚ)) + 1 / 2 := by
    norm_num at hGu hdu hFu ⊢
    linarith
  have hlo : 3 * (299 * (r : ℚ) + 587 * (g : ℚ) + 114 * (b : ℚ)) - 1 / 2 ≤ F * 85000 := by
    norm_num at hGl hdl hFl ⊢
    linarith
  have hfl_lt : ⌊F⌋ < specRampIndex r g b + 1 := by
    apply Int.floor_lt.mpr
    have h2 : (3 * (299 * (r : ℚ) + 587 * (g : ℚ) + 114 * (b : ℚ))) + 1
        ≤ ((specRampIndex r g b : ℚ) + 1) * 85000 := by
      rw [← hTq]
      exact_mod_cast (show 3 * (299 * (r : ℤ) + 587 * (g : ℤ) + 114 * (b : ℤ)) + 1
        ≤ (specRampIndex r g b + 1) * 85000 by omega)
    push_cast
    linarith
  have hfl_ge : specRampIndex r g b - 1 ≤ ⌊F⌋ := by
    apply Int.le_floor.mpr
    have h1 : (specRampIndex r g b : ℚ) * 85000
        ≤ 3 * (299 * (r : ℚ) + 587 * (g : ℚ) + 114 * (b : ℚ)) := by rw [← hTq]; exact hk1q
    push_cast
    linarith
  by_cases hdvd : (85000 : ℤ) ∣ 3 * (299 * (r : ℤ) + 587 * (g : ℤ) + 114 * (b : ℤ))
  · rcases Int.lt_or_le ⌊F⌋ (specRampIndex r g b) with h | h
    · exact Or.inr ⟨by omega, hdvd⟩
    · exact Or.inl (by omega)
  · left
    have hne : specRampIndex r g b * 85000
        ≠ 3 * (299 * (r : ℤ) + 587 * (g : ℤ) + 114 * (b : ℤ)) := by
      intro h
      exact hdvd (Dvd.intro_left _ h)
    have h3 : (specRampIndex r g b : ℚ) * 85000 + 1
        ≤ 3 * (299 * (r : ℚ) + 587 * (g : ℚ) + 114 * (b : ℚ)) := by
      rw [← hTq]
      exact_mod_cast (show specRampIndex r g b * 85000 + 1
        ≤ 3 * (299 * (r : ℤ) + 587 * (g : ℤ) + 114 * (b : ℤ)) by omega)
    have : specRampIndex r g b ≤ ⌊F⌋ := by
      apply Int.le_floor.mpr
      linarith
    omega

/-- The coordinate formula over exact numbers stays inside the source extent. -/
theorem specSrcCoord_bounds (i : ℕ) (extent n : ℤ) (he : 1 ≤ extent) (hi : (i : ℤ) < n) :
    0 ≤ specSrcCoord i extent n ∧ specSrcCoord i extent n < extent := by
  have hn : (0 : ℚ) < n := by exact_mod_cast (by omega : (0 : ℤ) < n)
  have he1 : (0 : ℚ) < extent := by exact_mod_cast (by omega : (0 : ℤ) < extent)
  have hi1 : (i : ℚ) < n := by exact_mod_cast hi
  have hi0 : (0 : ℚ) ≤ i := Nat.cast_nonneg i
  unfold specSrcCoord
  constructor
  · apply Int.floor_nonneg.mpr
    positivity
  · apply Int.floor_lt.mpr
    rw [div_lt_iff₀ hn]
    exact mul_lt_mul_of_pos_right hi1 he1 |>.trans_eq (mul_comm _ _)

/-- Beyond the widths covered by `srcCoord_bounds` the rounding of `float64(x)`
becomes visible: for `w = 1`, `targetWidth = 2^54` and `x = 2^54 - 1`,
`float64(x)` is `2^54`, `xStep` is `2^-54`, and the product is `1.0`.  A row of
`2^54` cells cannot be built in memory, so no run reaches this column. -/
theorem srcCoord_width_two_pow_54 :
    srcCoord ovfMinInt (2 ^ 54 - 1) (f64div (f64ofInt 1) (f64ofInt (2 ^ 54))) = 1 := by
  decide!

/-- For a non-empty image, `stripANSI` maps the coloured rendering to the plain one. -/
theorem toASCII_color_strip (ovf : ℚ → ℤ) (img : Image) (targetWidth : ℤ) (useBW : Bool)
    (hw : img.Bounds.Dx ≠ 0) (hh : img.Bounds.Dy ≠ 0) :
    ∃ colored, toASCII ovf img targetWidth true useBW = some colored ∧
      toASCII ovf img targetWidth false useBW = some (colored.map stripANSI) := by
  refine ⟨_, toASCII_eq_some ovf img targetWidth true useBW hw hh, ?_⟩
  rw [toASCII_eq_some ovf img targetWidth false useBW hw hh]
  congr 1
  rw [List.map_map]
  apply List.map_congr_left
  intro y _
  simp only [Function.comp, if_true, Bool.false_eq_true, if_false, List.append_nil]
  rw [stripANSI_eq_stripFrom]
  have := stripFrom_color_row ovf useBW
    ((List.range targetWidth.toNat).map (fun x => sample ovf img
      (f64div (f64ofInt img.Bounds.Dx) (f64ofInt targetWidth))
      (f64div (f64ofInt img.Bounds.Dy)
        (f64ofInt (targetHeight ovf img.Bounds.Dx img.Bounds.Dy targetWidth))) x y))
    (by
      intro p hp
      obtain ⟨x, -, rfl⟩ := List.mem_map.mp hp
      exact sample_le ovf img _ _ x y)
  simpa [List.map_map, Function.comp] using this.symm

/-! ## Claims -/

/-- C1 (as stated, refuted): for the 4x1 image and `targetWidth = 15` the quotient
`15 / 4 / 2 = 1.875` is truncated, so `toASCII` returns 1 line, whereas
`clamp(round(15 * 1 / (4 * 2)), 1, 2000) = 2`. -/
theorem C1_counterexample :
    (toASCII ovfMinInt (solidImage 4 1 white) 15 false false).map (fun l => (l.length : ℤ))
      ≠ some (specTargetHeight 4 1 15) := by
  decide!

/-- C1 (amended): for every image of width `w ≥ 1` and height `h ≥ 1` and every
`targetWidth` (in particular every `targetWidth ≥ 1`), `toASCII` returns a list whose number of lines is
`clamp(int(targetWidth / (w / h) / 2), 1, 2000)`, the quotient being computed in
`float64` and converted by `int`, which discards the fractional part. -/
theorem C1_height_truncates (ovf : ℚ → ℤ) (img : Image) (targetWidth : ℤ)
    (useColor useBW : Bool)
    (hw : 1 ≤ img.Bounds.Dx) (hh : 1 ≤ img.Bounds.Dy) :
    ∃ lines, toASCII ovf img targetWidth useColor useBW = some lines ∧
      (lines.length : ℤ) =
        clamp (f64ToInt ovf
          (f64div (f64div (f64ofInt targetWidth)
            (f64div (f64ofInt img.Bounds.Dx) (f64ofInt img.Bounds.Dy))) 2)) 1 2000 := by
  refine ⟨_, toASCII_eq_some ovf img targetWidth useColor useBW (by omega) (by omega), ?_⟩
  have hb := targetHeight_bounds ovf img.Bounds.Dx img.Bounds.Dy targetWidth
  rw [List.length_map, List.length_range, Int.toNat_of_nonneg (by omega)]
  rfl

/-- Witness of `C1_height_truncates`: the 4x1 image at `targetWidth = 15`. -/
theorem C1_height_truncates_witness :
    (1 ≤ (solidImage 4 1 white).Bounds.Dx ∧ 1 ≤ (solidImage 4 1 white).Bounds.Dy) ∧
    ∃ lines, toASCII ovfMinInt (solidImage 4 1 white) 15 false false = some lines ∧
      (lines.length : ℤ) =
        clamp (f64ToInt ovfMinInt
          (f64div (f64div (f64ofInt 15)
            (f64div (f64ofInt (solidImage 4 1 white).Bounds.Dx)
              (f64ofInt (solidImage 4 1 white).Bounds.Dy))) 2)) 1 2000 :=
  ⟨by decide, C1_height_truncates ovfMinInt (solidImage 4 1 white) 15 false false
    (by decide) (by decide)⟩

/-- C2 (as stated, refuted): the 30x1 image that is white in column 15 only,
rendered 22 columns wide.  The claim puts the glyph of source column
`floor(11 * 30 / 22) = 15` (white, `@`) at output column 11; the source computes
`xStep = 30.0 / 22.0`, whose product with `11.0` rounds to
`14.999999999999998`, samples column 14 (black) and emits a space. -/
theorem C2_counterexample :
    (toASCII ovfMinInt stripeImage 22 false false).bind (fun lines => charAt lines 11 0)
      = some 0x20 ∧
    specSrcCoord 11 stripeImage.Bounds.Dx 22 = 15 ∧
    specSrcCoord 0 stripeImage.Bounds.Dy
      (targetHeight ovfMinInt stripeImage.Bounds.Dx stripeImage.Bounds.Dy 22) = 0 ∧
    glyph ovfMinInt false
      (uint8 ((stripeImage.At (stripeImage.Bounds.Min.X + 15) (stripeImage.Bounds.Min.Y + 0)).r >>> 8))
      (uint8 ((stripeImage.At (stripeImage.Bounds.Min.X + 15) (stripeImage.Bounds.Min.Y + 0)).g >>> 8))
      (uint8 ((stripeImage.At (stripeImage.Bounds.Min.X + 15) (stripeImage.Bounds.Min.Y + 0)).b >>> 8))
      = some 0x40 := by
  obtain ⟨lines, h1, -, h3⟩ :=
    toASCII_plain_charAt ovfMinInt stripeImage 22 false (by decide) (by decide)
  have hb := targetHeight_bounds ovfMinInt stripeImage.Bounds.Dx stripeImage.Bounds.Dy 22
  rw [h1, Option.some_bind, h3 11 0 (by decide) (by omega)]
  refine ⟨?_, ?_, ?_, ?_⟩ <;> decide!

/-- C2 (amended): in plain mode, for every image with `w ≥ 1`, `h ≥ 1` and every
`targetWidth ≥ 1`, `toASCII` returns `targetHeight` lines of exactly
`targetWidth` bytes each, and the byte at column `x` of row `y` is the glyph of
the source pixel at `(Min.X + srcX, Min.Y + srcY)`, where
`srcX = int(float64(x) * (float64(w) / float64(targetWidth)))` and
`srcY = int(float64(y) * (float64(h) / float64(targetHeight)))` are computed in
`float64`, quotient and product each rounded.  When `w * targetWidth ≤ 2^50`,
`srcX` is `floor(x * w / targetWidth)`, or one less than it, the latter only
where `targetWidth` divides `x * w`; likewise for `srcY`. -/
theorem C2_plain_grid (ovf : ℚ → ℤ) (img : Image) (targetWidth : ℤ) (useBW : Bool)
    (hw : 1 ≤ img.Bounds.Dx) (hh : 1 ≤ img.Bounds.Dy) (htw : 1 ≤ targetWidth) :
    ∃ lines, toASCII ovf img targetWidth false useBW = some lines ∧
      (lines.length : ℤ) = targetHeight ovf img.Bounds.Dx img.Bounds.Dy targetWidth ∧
      (∀ line ∈ lines, (line.length : ℤ) = targetWidth) ∧
      ∀ x y : ℕ, (x : ℤ) < targetWidth →
        (y : ℤ) < targetHeight ovf img.Bounds.Dx img.Bounds.Dy targetWidth →
        ∃ ch, charAt lines x y = some ch ∧
          let srcX := f64ToInt ovf (f64mul (f64ofInt x)
            (f64div (f64ofInt img.Bounds.Dx) (f64ofInt targetWidth)))
          let srcY := f64ToInt ovf (f64mul (f64ofInt y)
            (f64div (f64ofInt img.Bounds.Dy)
              (f64ofInt (targetHeight ovf img.Bounds.Dx img.Bounds.Dy targetWidth))))
          let c := img.At (img.Bounds.Min.X + srcX) (img.Bounds.Min.Y + srcY)
          glyph ovf useBW (uint8 (c.r >>> 8)) (uint8 (c.g >>> 8)) (uint8 (c.b >>> 8))
            = some ch ∧
          (img.Bounds.Dx * targetWidth ≤ 2 ^ 50 →
            srcX = specSrcCoord x img.Bounds.Dx targetWidth ∨
              (srcX = specSrcCoord x img.Bounds.Dx targetWidth - 1 ∧
                targetWidth ∣ (x : ℤ) * img.Bounds.Dx)) ∧
          (img.Bounds.Dy * targetHeight ovf img.Bounds.Dx img.Bounds.Dy targetWidth ≤ 2 ^ 50 →
            srcY = specSrcCoord y img.Bounds.Dy
                (targetHeight ovf img.Bounds.Dx img.Bounds.Dy targetWidth) ∨
              (srcY = specSrcCoord y img.Bounds.Dy
                  (targetHeight ovf img.Bounds.Dx img.Bounds.Dy targetWidth) - 1 ∧
                targetHeight ovf img.Bounds.Dx img.Bounds.Dy targetWidth
                  ∣ (y : ℤ) * img.Bounds.Dy)) := by
  have hb := targetHeight_bounds ovf img.Bounds.Dx img.Bounds.Dy targetWidth
  refine ⟨_, toASCII_eq_some ovf img targetWidth false useBW (by omega) (by omega), ?_, ?_, ?_⟩
  · rw [List.length_map, List.length_range, Int.toNat_of_nonneg (by omega)]
  · intro line hline
    rw [List.mem_map] at hline
    obtain ⟨y, -, rfl⟩ := hline
    simp only [cellBytes, Bool.false_eq_true, if_false, List.append_nil]
    rw [flatten_map_singleton, List.length_map, List.length_range, Int.toNat_of_nonneg (by omega)]
  · intro x y hx hy
    simp only [cellBytes, Bool.false_eq_true, if_false, List.append_nil]
    simp only [flatten_map_singleton]
    refine ⟨_, charAt_map_map _ _ _ x y (by omega) (by omega), ?_⟩
    obtain ⟨h1, h2, h3⟩ := sample_le ovf img
      (f64div (f64ofInt img.Bounds.Dx) (f64ofInt targetWidth))
      (f64div (f64ofInt img.Bounds.Dy)
        (f64ofInt (targetHeight ovf img.Bounds.Dx img.Bounds.Dy targetWidth))) x y
    have hg := glyph_eq_some ovf useBW _ h1 h2 h3
    refine ⟨?_, ?_, ?_⟩
    · simp only [sample, srcCoord] at hg ⊢
      exact hg
    · intro hp
      have := srcCoord_vs_exact ovf x img.Bounds.Dx targetWidth hw hx hp
      simp only [srcCoord] at this
      exact this
    · intro hp
      have := srcCoord_vs_exact ovf y img.Bounds.Dy
        (targetHeight ovf img.Bounds.Dx img.Bounds.Dy targetWidth) hh hy hp
      simp only [srcCoord] at this
      exact this

/-- Witness of `C2_plain_grid`: the white 4x1 image rendered 15 columns wide. -/
theorem C2_plain_grid_witness :
    (1 ≤ (solidImage 4 1 white).Bounds.Dx ∧ 1 ≤ (solidImage 4 1 white).Bounds.Dy ∧ (1 : ℤ) ≤ 15) ∧
    ∃ lines, toASCII ovfMinInt (solidImage 4 1 white) 15 false false = some lines ∧
      (lines.length : ℤ) = targetHeight ovfMinInt (solidImage 4 1 white).Bounds.Dx
        (solidImage 4 1 white).Bounds.Dy 15 ∧
      (∀ line ∈ lines, (line.length : ℤ) = 15) ∧
      ∀ x y : ℕ, (x : ℤ) < 15 →
        (y : ℤ) < targetHeight ovfMinInt (solidImage 4 1 white).Bounds.Dx
          (solidImage 4 1 white).Bounds.Dy 15 →
        ∃ ch, charAt lines x y = some ch ∧
          let srcX := f64ToInt ovfMinInt (f64mul (f64ofInt x)
            (f64div (f64ofInt (solidImage 4 1 white).Bounds.Dx) (f64ofInt 15)))
          let srcY := f64ToInt ovfMinInt (f64mul (f64ofInt y)
            (f64div (f64ofInt (solidImage 4 1 white).Bounds.Dy)
              (f64ofInt (targetHeight ovfMinInt (solidImage 4 1 white).Bounds.Dx
                (solidImage 4 1 white).Bounds.Dy 15))))
          let c := (solidImage 4 1 white).At ((solidImage 4 1 white).Bounds.Min.X + srcX)
            ((solidImage 4 1 white).Bounds.Min.Y + srcY)
          glyph ovfMinInt false (uint8 (c.r >>> 8)) (uint8 (c.g >>> 8)) (uint8 (c.b >>> 8))
            = some ch ∧
          ((solidImage 4 1 white).Bounds.Dx * 15 ≤ 2 ^ 50 →
            srcX = specSrcCoord x (solidImage 4 1 white).Bounds.Dx 15 ∨
              (srcX = specSrcCoord x (solidImage 4 1 white).Bounds.Dx 15 - 1 ∧
                (15 : ℤ) ∣ (x : ℤ) * (solidImage 4 1 white).Bounds.Dx)) ∧
          ((solidImage 4 1 white).Bounds.Dy * targetHeight ovfMinInt
              (solidImage 4 1 white).Bounds.Dx (solidImage 4 1 white).Bounds.Dy 15 ≤ 2 ^ 50 →
            srcY = specSrcCoord y (solidImage 4 1 white).Bounds.Dy
                (targetHeight ovfMinInt (solidImage 4 1 white).Bounds.Dx
                  (solidImage 4 1 white).Bounds.Dy 15) ∨
              (srcY = specSrcCoord y (solidImage 4 1 white).Bounds.Dy
                  (targetHeight ovfMinInt (solidImage 4 1 white).Bounds.Dx
                    (solidImage 4 1 white).Bounds.Dy 15) - 1 ∧
                targetHeight ovfMinInt (solidImage 4 1 white).Bounds.Dx
                    (solidImage 4 1 white).Bounds.Dy 15
                  ∣ (y : ℤ) * (solidImage 4 1 white).Bounds.Dy)) :=
  ⟨by decide, C2_plain_grid ovfMinInt (solidImage 4 1 white) 15 false
    (by decide) (by decide) (by decide)⟩

/-- C3: in black/white mode (plain output), for every image with `w ≥ 1`,
`h ≥ 1` and every `targetWidth`, the byte `toASCII` emits for a cell is the
space when the luminance `L = 0.299 R + 0.587 G + 0.114 B` of the sampled 8-bit
channels satisfies `L > 127`, and `#` otherwise; no other byte occurs in the
output.  `L` is the `float64` value the source computes, and for 8-bit channels
`L > 127` holds exactly when the weighted sum over exact numbers exceeds 127. -/
theorem C3_bw_glyph (ovf : ℚ → ℤ) (img : Image) (targetWidth : ℤ)
    (hw : 1 ≤ img.Bounds.Dx) (hh : 1 ≤ img.Bounds.Dy) :
    ∃ lines, toASCII ovf img targetWidth false true = some lines ∧
      (∀ line ∈ lines, ∀ c ∈ line, c = 0x20 ∨ c = 0x23) ∧
      ∀ x y : ℕ, (x : ℤ) < targetWidth →
        (y : ℤ) < targetHeight ovf img.Bounds.Dx img.Bounds.Dy targetWidth →
        let srcX := f64ToInt ovf (f64mul (f64ofInt x)
          (f64div (f64ofInt img.Bounds.Dx) (f64ofInt targetWidth)))
        let srcY := f64ToInt ovf (f64mul (f64ofInt y)
          (f64div (f64ofInt img.Bounds.Dy)
            (f64ofInt (targetHeight ovf img.Bounds.Dx img.Bounds.Dy targetWidth))))
        let c := img.At (img.Bounds.Min.X + srcX) (img.Bounds.Min.Y + srcY)
        let L := gray (uint8 (c.r >>> 8)) (uint8 (c.g >>> 8)) (uint8 (c.b >>> 8))
        charAt lines x y = some (if L > 127 then 0x20 else 0x23) ∧
          (L > 127 ↔ (299 * ((uint8 (c.r >>> 8) : ℕ) : ℚ) + 587 * ((uint8 (c.g >>> 8) : ℕ) : ℚ)
            + 114 * ((uint8 (c.b >>> 8) : ℕ) : ℚ)) / 1000 > 127) := by
  obtain ⟨lines, h1, h2, h3⟩ := toASCII_plain_charAt ovf img targetWidth true (by omega) (by omega)
  refine ⟨lines, h1, ?_, ?_⟩
  · intro line hline c hc
    obtain ⟨-, p, -, -, -, rfl⟩ := h2 line hline c hc
    rw [glyphD_bw]
    split_ifs
    · exact Or.inl rfl
    · exact Or.inr rfl
  · intro x y hx hy
    have := h3 x y hx hy
    rw [glyphD_bw] at this
    simp only [sample, srcCoord] at this
    exact ⟨this, gray_gt_127_iff _ _ _ (uint8_le _) (uint8_le _) (uint8_le _)⟩

/-- Witness of `C3_bw_glyph`: a mid-grey 1x1 image rendered 2 columns wide. -/
theorem C3_bw_glyph_witness :
    (1 ≤ (solidImage 1 1 (grey 128)).Bounds.Dx ∧ 1 ≤ (solidImage 1 1 (grey 128)).Bounds.Dy) ∧
    ∃ lines, toASCII ovfMinInt (solidImage 1 1 (grey 128)) 2 false true = some lines ∧
      (∀ line ∈ lines, ∀ c ∈ line, c = 0x20 ∨ c = 0x23) ∧
      ∀ x y : ℕ, (x : ℤ) < 2 →
        (y : ℤ) < targetHeight ovfMinInt (solidImage 1 1 (grey 128)).Bounds.Dx
          (solidImage 1 1 (grey 128)).Bounds.Dy 2 →
        let srcX := f64ToInt ovfMinInt (f64mul (f64ofInt x)
          (f64div (f64ofInt (solidImage 1 1 (grey 128)).Bounds.Dx) (f64ofInt 2)))
        let srcY := f64ToInt ovfMinInt (f64mul (f64ofInt y)
          (f64div (f64ofInt (solidImage 1 1 (grey 128)).Bounds.Dy)
            (f64ofInt (targetHeight ovfMinInt (solidImage 1 1 (grey 128)).Bounds.Dx
              (solidImage 1 1 (grey 128)).Bounds.Dy 2))))
        let c := (solidImage 1 1 (grey 128)).At ((solidImage 1 1 (grey 128)).Bounds.Min.X + srcX)
          ((solidImage 1 1 (grey 128)).Bounds.Min.Y + srcY)
        let L := gray (uint8 (c.r >>> 8)) (uint8 (c.g >>> 8)) (uint8 (c.b >>> 8))
        charAt lines x y = some (if L > 127 then 0x20 else 0x23) ∧
          (L > 127 ↔ (299 * ((uint8 (c.r >>> 8) : ℕ) : ℚ) + 587 * ((uint8 (c.g >>> 8) : ℕ) : ℚ)
            + 114 * ((uint8 (c.b >>> 8) : ℕ) : ℚ)) / 1000 > 127) :=
  ⟨by decide, C3_bw_glyph ovfMinInt (solidImage 1 1 (grey 128)) 2 (by decide) (by decide)⟩

/-- C4 (as stated, refuted): the pixel `R = G = B = 128` is rendered as the
space, not as `#`, and the pixel `R = G = B = 127` is rendered as `#`, not as
the space: a 1x1 image of either grey, two columns wide in black/white mode. -/
theorem C4_counterexample :
    toASCII ovfMinInt (solidImage 1 1 (grey 128)) 2 false true = some [[0x20, 0x20]] ∧
    toASCII ovfMinInt (solidImage 1 1 (grey 127)) 2 false true = some [[0x23, 0x23]] := by
  decide!

/-- C4 (amended): in black/white mode the glyph is a step function of the
luminance with the light glyph above the threshold: a luminance of exactly 128,
and the pixel `R = G = B = 128`, yield the space; a luminance of exactly 127,
and the pixel `R = G = B = 127`, yield `#`. -/
theorem C4_bw_step (ovf : ℚ → ℤ) :
    glyphOfGray ovf true 128 = some 0x20 ∧ glyphOfGray ovf true 127 = some 0x23 ∧
    glyph ovf true 128 128 128 = some 0x20 ∧ glyph ovf true 127 127 127 = some 0x23 := by
  have h128 : gray 128 128 128 > 127 := by decide!
  have h127 : ¬ gray 127 127 127 > 127 := by decide!
  refine ⟨?_, ?_, ?_, ?_⟩
  · unfold glyphOfGray
    norm_num
  · unfold glyphOfGray
    norm_num
  · unfold glyph glyphOfGray
    simp only [if_true]
    rw [if_pos h128]
  · unfold glyph glyphOfGray
    simp only [if_true]
    rw [if_neg h127]

/-- C5 (as stated, refuted): the pixel `(13, 249, 175)` has
`L = 0.299 * 13 + 0.587 * 249 + 0.114 * 175 = 170` exactly, so the claim selects
index `floor((170 / 255) * 9) = 6`, the character `*`; the source computes
`gray = 169.99999999999997` in `float64`, index 5, and emits `+`. -/
theorem C5_counterexample :
    toASCII ovfMinInt (solidImage 1 1 (rgb8 13 249 175)) 2 false false
      = some [[0x2b, 0x2b]] ∧
    (299 * (13 : ℚ) + 587 * 249 + 114 * 175) / 1000 = 170 ∧
    specRampIndex 13 249 175 = 6 ∧
    grayRamp.get? 6 = some 0x2a := by
  refine ⟨?_, ?_, ?_, ?_⟩ <;> decide!

/-- C5 (amended): in grayscale-ramp mode, for every image with `w ≥ 1`, `h ≥ 1`
and every `targetWidth`, in plain and in colour output, the glyph `toASCII`
emits for a cell is the character at index `int((gray / 255.0) * 9)` of the ramp
`" .:-=+*#%@"`, where `gray = 0.299 R + 0.587 G + 0.114 B` is computed from the
sampled 8-bit channels in `float64`, every operation rounded.  That index is
`floor((L / 255) * 9)` for the exact luminance `L`, or one less than it, the
latter only where `(L / 255) * 9` is an integer.  A black pixel yields the space
(index 0) and a white pixel yields `@` (index 9). -/
theorem C5_ramp_glyph (ovf : ℚ → ℤ) (img : Image) (targetWidth : ℤ)
    (hw : 1 ≤ img.Bounds.Dx) (hh : 1 ≤ img.Bounds.Dy) :
    (∃ plain colored, toASCII ovf img targetWidth false false = some plain ∧
      toASCII ovf img targetWidth true false = some colored ∧
      ∀ x y : ℕ, (x : ℤ) < targetWidth →
        (y : ℤ) < targetHeight ovf img.Bounds.Dx img.Bounds.Dy targetWidth →
        let srcX := f64ToInt ovf (f64mul (f64ofInt x)
          (f64div (f64ofInt img.Bounds.Dx) (f64ofInt targetWidth)))
        let srcY := f64ToInt ovf (f64mul (f64ofInt y)
          (f64div (f64ofInt img.Bounds.Dy)
            (f64ofInt (targetHeight ovf img.Bounds.Dx img.Bounds.Dy targetWidth))))
        let c := img.At (img.Bounds.Min.X + srcX) (img.Bounds.Min.Y + srcY)
        let R := uint8 (c.r >>> 8)
        let G := uint8 (c.g >>> 8)
        let B := uint8 (c.b >>> 8)
        let L := gray R G B
        ∃ i : ℕ, (i : ℤ) = ⌊f64mul (f64div L 255) 9⌋ ∧ i < 10 ∧
          ((i : ℤ) = specRampIndex R G B ∨
            ((i : ℤ) = specRampIndex R G B - 1 ∧
              (85000 : ℤ) ∣ 3 * (299 * (R : ℤ) + 587 * (G : ℤ) + 114 * (B : ℤ)))) ∧
          ∃ ch, grayRamp.get? i = some ch ∧ charAt plain x y = some ch ∧
            charAt (colored.map stripANSI) x y = some ch) ∧
    grayRamp = " .:-=+*#%@".toList.map Char.toUInt8 ∧
    glyph ovf false 0 0 0 = some 0x20 ∧ grayRamp.get? 0 = some 0x20 ∧
    glyph ovf false 255 255 255 = some 0x40 ∧ grayRamp.get? 9 = some 0x40 := by
  refine ⟨?_, by decide, ?_, by decide, ?_, by decide⟩
  · obtain ⟨lines, h1, -, h3⟩ :=
      toASCII_plain_charAt ovf img targetWidth false (by omega) (by omega)
    obtain ⟨colored, k1, k2⟩ :=
      toASCII_color_strip ovf img targetWidth false (by omega) (by omega)
    have hpc : colored.map stripANSI = lines := by
      rw [h1] at k2
      exact (Option.some.inj k2).symm
    refine ⟨lines, colored, h1, k1, ?_⟩
    intro x y hx hy
    have hc := h3 x y hx hy
    obtain ⟨s1, s2, s3⟩ := sample_le ovf img
      (f64div (f64ofInt img.Bounds.Dx) (f64ofInt targetWidth))
      (f64div (f64ofInt img.Bounds.Dy)
        (f64ofInt (targetHeight ovf img.Bounds.Dx img.Bounds.Dy targetWidth))) x y
    obtain ⟨i, e1, e2, e3⟩ := glyphD_ramp ovf _ s1 s2 s3
    obtain ⟨r1, -, -⟩ := rampIndex_spec ovf (gray_nonneg _ _ _) (gray_le_255 s1 s2 s3)
    rw [f64ofInt_nine] at r1
    have hv := rampIndex_vs_exact ovf _ _ _ s1 s2 s3
    rw [r1, ← e1] at hv
    rw [hpc]
    simp only [sample, srcCoord] at hc e1 e3 hv ⊢
    exact ⟨i, e1, e2, hv, _, e3, hc, hc⟩
  · obtain ⟨i, e1, -, e3⟩ := glyphD_ramp ovf (0, 0, 0) (by norm_num) (by norm_num) (by norm_num)
    have hv : ⌊f64mul (f64div (gray 0 0 0) 255) 9⌋ = 0 := by decide!
    have hi : i = 0 := by
      simp only [hv] at e1
      omega
    subst hi
    rw [glyph_eq_some ovf false (0, 0, 0) (by norm_num) (by norm_num) (by norm_num), ← e3]
    rfl
  · obtain ⟨i, e1, -, e3⟩ :=
      glyphD_ramp ovf (255, 255, 255) (by norm_num) (by norm_num) (by norm_num)
    have hv : ⌊f64mul (f64div (gray 255 255 255) 255) 9⌋ = 9 := by decide!
    have hi : i = 9 := by
      simp only [hv] at e1
      omega
    subst hi
    rw [glyph_eq_some ovf false (255, 255, 255) (by norm_num) (by norm_num) (by norm_num), ← e3]
    rfl

/-- Witness of `C5_ramp_glyph`: the white 4x1 image rendered 15 columns wide. -/
theorem C5_ramp_glyph_witness :
    (1 ≤ (solidImage 4 1 white).Bounds.Dx ∧ 1 ≤ (solidImage 4 1 white).Bounds.Dy) ∧
    ((∃ plain colored, toASCII ovfMinInt (solidImage 4 1 white) 15 false false = some plain ∧
      toASCII ovfMinInt (solidImage 4 1 white) 15 true false = some colored ∧
      ∀ x y : ℕ, (x : ℤ) < 15 →
        (y : ℤ) < targetHeight ovfMinInt (solidImage 4 1 white).Bounds.Dx
          (solidImage 4 1 white).Bounds.Dy 15 →
        let srcX := f64ToInt ovfMinInt (f64mul (f64ofInt x)
          (f64div (f64ofInt (solidImage 4 1 white).Bounds.Dx) (f64ofInt 15)))
        let srcY := f64ToInt ovfMinInt (f64mul (f64ofInt y)
          (f64div (f64ofInt (solidImage 4 1 white).Bounds.Dy)
            (f64ofInt (targetHeight ovfMinInt (solidImage 4 1 white).Bounds.Dx
              (solidImage 4 1 white).Bounds.Dy 15))))
        let c := (solidImage 4 1 white).At ((solidImage 4 1 white).Bounds.Min.X + srcX)
          ((solidImage 4 1 white).Bounds.Min.Y + srcY)
        let R := uint8 (c.r >>> 8)
        let G := uint8 (c.g >>> 8)
        let B := uint8 (c.b >>> 8)
        let L := gray R G B
        ∃ i : ℕ, (i : ℤ) = ⌊f64mul (f64div L 255) 9⌋ ∧ i < 10 ∧
          ((i : ℤ) = specRampIndex R G B ∨
            ((i : ℤ) = specRampIndex R G B - 1 ∧
              (85000 : ℤ) ∣ 3 * (299 * (R : ℤ) + 587 * (G : ℤ) + 114 * (B : ℤ)))) ∧
          ∃ ch, grayRamp.get? i = some ch ∧ charAt plain x y = some ch ∧
            charAt (colored.map stripANSI) x y = some ch) ∧
    grayRamp = " .:-=+*#%@".toList.map Char.toUInt8 ∧
    glyph ovfMinInt false 0 0 0 = some 0x20 ∧ grayRamp.get? 0 = some 0x20 ∧
    glyph ovfMinInt false 255 255 255 = some 0x40 ∧ grayRamp.get? 9 = some 0x40) :=
  ⟨by decide, C5_ramp_glyph ovfMinInt (solidImage 4 1 white) 15 (by decide) (by decide)⟩

/-- C6: the ramp index is monotone in the luminance: for any two pixels with
8-bit channels, if the luminance of the first is at most the luminance of the
second (luminance as the source computes it), then the ramp index chosen for
the first is at most the index chosen for the second; both indices select a
character of the ramp. -/
theorem C6_ramp_monotone (ovf : ℚ → ℤ) (r g b r' g' b' : ℕ)
    (hr : r ≤ 255) (hg : g ≤ 255) (hb : b ≤ 255)
    (hr' : r' ≤ 255) (hg' : g' ≤ 255) (hb' : b' ≤ 255)
    (h : gray r g b ≤ gray r' g' b') :
    rampIndex ovf (gray r g b) ≤ rampIndex ovf (gray r' g' b') ∧
    ∃ i j : ℕ, i ≤ j ∧ j < 10 ∧
      (i : ℤ) = rampIndex ovf (gray r g b) ∧ (j : ℤ) = rampIndex ovf (gray r' g' b') ∧
      glyph ovf false r g b = grayRamp.get? i ∧ glyph ovf false r' g' b' = grayRamp.get? j := by
  have hm := rampIndex_mono ovf (gray_nonneg r g b) h (gray_le_255 hr' hg' hb')
  obtain ⟨-, a0, a9⟩ := rampIndex_spec ovf (gray_nonneg r g b) (gray_le_255 hr hg hb)
  obtain ⟨-, b0, b9⟩ := rampIndex_spec ovf (gray_nonneg r' g' b') (gray_le_255 hr' hg' hb')
  refine ⟨hm, (rampIndex ovf (gray r g b)).toNat, (rampIndex ovf (gray r' g' b')).toNat,
    by omega, by omega, by omega, by omega, ?_, ?_⟩
  · unfold glyph glyphOfGray byteAt
    simp only [Bool.false_eq_true, if_false, if_pos a0]
  · unfold glyph glyphOfGray byteAt
    simp only [Bool.false_eq_true, if_false, if_pos b0]

/-- Witness of `C6_ramp_monotone`: a black and a white pixel. -/
theorem C6_ramp_monotone_witness :
    ((0 : ℕ) ≤ 255 ∧ (255 : ℕ) ≤ 255 ∧ gray 0 0 0 ≤ gray 255 255 255) ∧
    (rampIndex ovfMinInt (gray 0 0 0) ≤ rampIndex ovfMinInt (gray 255 255 255) ∧
    ∃ i j : ℕ, i ≤ j ∧ j < 10 ∧
      (i : ℤ) = rampIndex ovfMinInt (gray 0 0 0) ∧
      (j : ℤ) = rampIndex ovfMinInt (gray 255 255 255) ∧
      glyph ovfMinInt false 0 0 0 = grayRamp.get? i ∧
      glyph ovfMinInt false 255 255 255 = grayRamp.get? j) :=
  ⟨⟨by decide, by decide, by decide!⟩,
    C6_ramp_monotone ovfMinInt 0 0 0 255 255 255 (by decide) (by decide) (by decide)
      (by decide) (by decide) (by decide) (by decide!)⟩

/-- C7: colour stripping is lossless for glyphs: for every image, every
`targetWidth` and every `useBW`, `toASCII` succeeds in both colour modes and
`stripANSI` applied to row `y` of the coloured rendering is row `y` of the plain
rendering; no ESC byte remains. -/
theorem C7_strip_color_is_plain (ovf : ℚ → ℤ) (img : Image) (targetWidth : ℤ) (useBW : Bool) :
    ∃ colored plain, toASCII ovf img targetWidth true useBW = some colored ∧
      toASCII ovf img targetWidth false useBW = some plain ∧
      colored.map stripANSI = plain ∧
      ∀ l ∈ colored, ESC ∉ stripANSI l := by
  by_cases hwh : img.Bounds.Dx = 0 ∨ img.Bounds.Dy = 0
  · refine ⟨[emptyImageLine], [emptyImageLine], ?_, ?_, ?_, ?_⟩
    · unfold toASCII; simp only []; rw [if_pos hwh]
    · unfold toASCII; simp only []; rw [if_pos hwh]
    · decide
    · decide
  · have hw : img.Bounds.Dx ≠ 0 := fun h => hwh (Or.inl h)
    have hh : img.Bounds.Dy ≠ 0 := fun h => hwh (Or.inr h)
    refine ⟨_, _, toASCII_eq_some ovf img targetWidth true useBW hw hh,
      toASCII_eq_some ovf img targetWidth false useBW hw hh, ?_, ?_⟩
    · rw [List.map_map]
      apply List.map_congr_left
      intro y _
      simp only [Function.comp, if_true, Bool.false_eq_true, if_false, List.append_nil]
      rw [stripANSI_eq_stripFrom]
      have := stripFrom_color_row ovf useBW
        ((List.range targetWidth.toNat).map (fun x => sample ovf img
          (f64div (f64ofInt img.Bounds.Dx) (f64ofInt targetWidth))
          (f64div (f64ofInt img.Bounds.Dy)
            (f64ofInt (targetHeight ovf img.Bounds.Dx img.Bounds.Dy targetWidth))) x y))
        (by
          intro p hp
          obtain ⟨x, -, rfl⟩ := List.mem_map.mp hp
          exact sample_le ovf img _ _ x y)
      simpa [List.map_map, Function.comp] using this
    · intro l _
      rw [stripANSI_eq_stripFrom]
      exact stripFrom_no_esc false l

/-- C8: `stripANSI` is idempotent: for every byte string `s`,
`stripANSI (stripANSI s) = stripANSI s`. -/
theorem C8_stripANSI_idempotent (s : List UInt8) : stripANSI (stripANSI s) = stripANSI s := by
  rw [stripANSI_eq_stripFrom s, stripANSI_eq_stripFrom]
  exact stripFrom_of_no_esc _ (stripFrom_no_esc false s)

/-- C9: for every byte string `s`, `stripANSI s` is `s` with every escape
sequence removed, an escape sequence starting at an ESC byte and running up to
and including the first subsequent ASCII letter; all other bytes are kept
unchanged and in order (`removeEscapes` is that description). -/
theorem C9_stripANSI_removes_escapes (s : List UInt8) : stripANSI s = removeEscapes s := by
  rw [stripANSI_eq_stripFrom]
  exact stripFrom_eq_removeEscapesAux s.length s le_rfl

/-- C10: stripping a plain rendering is a no-op: for every image, `targetWidth`
and `useBW`, every line `l` of the plain rendering satisfies `stripANSI l = l`;
more generally `stripANSI s = s` for every string `s` without an ESC byte. -/
theorem C10_strip_plain_noop (ovf : ℚ → ℤ) (img : Image) (targetWidth : ℤ) (useBW : Bool)
    (s : List UInt8) (hs : ESC ∉ s) :
    (∃ lines, toASCII ovf img targetWidth false useBW = some lines ∧
      ∀ l ∈ lines, stripANSI l = l) ∧
    stripANSI s = s := by
  constructor
  · by_cases hwh : img.Bounds.Dx = 0 ∨ img.Bounds.Dy = 0
    · refine ⟨[emptyImageLine], ?_, ?_⟩
      · unfold toASCII; simp only []; rw [if_pos hwh]
      · decide
    · have hw : img.Bounds.Dx ≠ 0 := fun h => hwh (Or.inl h)
      have hh : img.Bounds.Dy ≠ 0 := fun h => hwh (Or.inr h)
      obtain ⟨lines, h1, h2, -⟩ := toASCII_plain_charAt ovf img targetWidth useBW hw hh
      refine ⟨lines, h1, ?_⟩
      intro l hl
      rw [stripANSI_eq_stripFrom]
      apply stripFrom_of_no_esc
      intro hmem
      exact (glyph_set_props _ (h2 l hl ESC hmem).1).1 rfl
  · rw [stripANSI_eq_stripFrom]
    exact stripFrom_of_no_esc s hs

/-- Witness of `C10_strip_plain_noop`: the string `"ok"` and a white 4x1 image. -/
theorem C10_strip_plain_noop_witness :
    ESC ∉ ([0x6f, 0x6b] : List UInt8) ∧
    ((∃ lines, toASCII ovfMinInt (solidImage 4 1 white) 15 false false = some lines ∧
      ∀ l ∈ lines, stripANSI l = l) ∧
    stripANSI [0x6f, 0x6b] = [0x6f, 0x6b]) :=
  ⟨by decide, C10_strip_plain_noop ovfMinInt (solidImage 4 1 white) 15 false [0x6f, 0x6b]
    (by decide)⟩

/-- C11: for every list of lines (whatever escape sequences they carry,
terminated or not), the text `writeOutput` assembles in Markdown mode begins
with the fence line, ends with the fence line, and contains no ESC byte. -/
theorem C11_markdown_fenced_no_esc (lines : List (List UInt8)) :
    fence <+: writeOutput lines true ∧ fence <:+ writeOutput lines true ∧
      ESC ∉ writeOutput lines true := by
  rw [writeOutput_markdown]
  refine ⟨?_, ?_, ?_⟩
  · rw [List.append_assoc]
    exact List.prefix_append _ _
  · exact List.suffix_append _ _
  · intro h
    simp only [List.mem_append, List.mem_flatten, List.mem_map] at h
    rcases h with (h | ⟨l, ⟨l0, -, rfl⟩, h⟩) | h
    · revert h; decide
    · rcases List.mem_append.mp h with h | h
      · rw [stripANSI_eq_stripFrom] at h
        exact stripFrom_no_esc false l0 h
      · revert h; decide
    · revert h; decide

/-- C12: in colour mode, for every image with `w ≥ 1` and `h ≥ 1`, every line
`toASCII` returns is the concatenation, over the cells of the row in column
order, of the sequence ESC `[38;2;R;G;Bm` (with `R`, `G`, `B` the sampled
channels in decimal, each the 16-bit channel shifted right by 8 and so at most
255) immediately followed by the glyph of the cell, followed by the reset
sequence ESC `[0m`; the reset sequence occurs nowhere else in the line. -/
theorem C12_color_line (ovf : ℚ → ℤ) (img : Image) (targetWidth : ℤ) (useBW : Bool)
    (hw : 1 ≤ img.Bounds.Dx) (hh : 1 ≤ img.Bounds.Dy) :
    (∃ lines, toASCII ovf img targetWidth true useBW = some lines ∧
      (lines.length : ℤ) = targetHeight ovf img.Bounds.Dx img.Bounds.Dy targetWidth ∧
      ∀ y : ℕ, (y : ℤ) < targetHeight ovf img.Bounds.Dx img.Bounds.Dy targetWidth →
        ∃ (line : List UInt8) (cells : List (List UInt8)), lines.get? y = some line ∧
          line = cells.flatten ++ [ESC, 0x5b, 0x30, 0x6d] ∧
          cells.length = targetWidth.toNat ∧
          (∀ pre suf, line = pre ++ [ESC, 0x5b, 0x30, 0x6d] ++ suf → suf = []) ∧
          ∀ x : ℕ, (x : ℤ) < targetWidth →
            let srcX := f64ToInt ovf (f64mul (f64ofInt x)
              (f64div (f64ofInt img.Bounds.Dx) (f64ofInt targetWidth)))
            let srcY := f64ToInt ovf (f64mul (f64ofInt y)
              (f64div (f64ofInt img.Bounds.Dy)
                (f64ofInt (targetHeight ovf img.Bounds.Dx img.Bounds.Dy targetWidth))))
            let c := img.At (img.Bounds.Min.X + srcX) (img.Bounds.Min.Y + srcY)
            let R := uint8 (c.r >>> 8)
            let G := uint8 (c.g >>> 8)
            let B := uint8 (c.b >>> 8)
            ∃ ch, glyph ovf useBW R G B = some ch ∧
              cells.get? x = some ([ESC, 0x5b, 0x33, 0x38, 0x3b, 0x32, 0x3b] ++ fmtD R
                ++ [0x3b] ++ fmtD G ++ [0x3b] ++ fmtD B ++ [0x6d, ch])) ∧
    (∀ v : ℕ, uint8 (v >>> 8) ≤ 255 ∧ (v ≤ 0xffff → uint8 (v >>> 8) = v >>> 8)) ∧
    (∀ n : ℕ, fmtD n = (Nat.repr n).toList.map Char.toUInt8) := by
  have hb := targetHeight_bounds ovf img.Bounds.Dx img.Bounds.Dy targetWidth
  refine ⟨⟨_, toASCII_eq_some ovf img targetWidth true useBW (by omega) (by omega), ?_, ?_⟩,
    ?_, ?_⟩
  · rw [List.length_map, List.length_range, Int.toNat_of_nonneg (by omega)]
  · intro y hy
    have hprops : ∀ x : ℕ,
        (glyphD ovf useBW (sample ovf img
          (f64div (f64ofInt img.Bounds.Dx) (f64ofInt targetWidth))
          (f64div (f64ofInt img.Bounds.Dy)
            (f64ofInt (targetHeight ovf img.Bounds.Dx img.Bounds.Dy targetWidth))) x y)) ≠ ESC ∧
        (glyphD ovf useBW (sample ovf img
          (f64div (f64ofInt img.Bounds.Dx) (f64ofInt targetWidth))
          (f64div (f64ofInt img.Bounds.Dy)
            (f64ofInt (targetHeight ovf img.Bounds.Dx img.Bounds.Dy targetWidth))) x y)) < 0x80 := by
      intro x
      obtain ⟨s1, s2, s3⟩ := sample_le ovf img
        (f64div (f64ofInt img.Bounds.Dx) (f64ofInt targetWidth))
        (f64div (f64ofInt img.Bounds.Dy)
          (f64ofInt (targetHeight ovf img.Bounds.Dx img.Bounds.Dy targetWidth))) x y
      exact glyph_set_props _ (glyphD_mem ovf useBW _ s1 s2 s3)
    refine ⟨((List.range targetWidth.toNat).map (fun x => cellBytes ovf true useBW
      (sample ovf img (f64div (f64ofInt img.Bounds.Dx) (f64ofInt targetWidth))
        (f64div (f64ofInt img.Bounds.Dy)
          (f64ofInt (targetHeight ovf img.Bounds.Dx img.Bounds.Dy targetWidth))) x y))).flatten
        ++ resetSeq,
      (List.range targetWidth.toNat).map (fun x => cellBytes ovf true useBW
      (sample ovf img (f64div (f64ofInt img.Bounds.Dx) (f64ofInt targetWidth))
        (f64div (f64ofInt img.Bounds.Dy)
          (f64ofInt (targetHeight ovf img.Bounds.Dx img.Bounds.Dy targetWidth))) x y)),
      ?_, ?_, ?_, ?_, ?_⟩
    · rw [List.get?_eq_getElem?, List.getElem?_map, List.getElem?_range (by omega)]
      rfl
    · rfl
    · rw [List.length_map, List.length_range]
    · intro pre suf hline
      refine reset_only_at_end _ ?_ pre suf hline.symm
      intro c hc
      obtain ⟨x, -, rfl⟩ := List.mem_map.mp hc
      obtain ⟨s1, s2, s3⟩ := sample_le ovf img
        (f64div (f64ofInt img.Bounds.Dx) (f64ofInt targetWidth))
        (f64div (f64ofInt img.Bounds.Dy)
          (f64ofInt (targetHeight ovf img.Bounds.Dx img.Bounds.Dy targetWidth))) x y
      simp only [cellBytes, if_true]
      exact colorCell_tail _ _ _ _ s1 s2 s3 (hprops x).1 (hprops x).2
    · intro x hx
      obtain ⟨s1, s2, s3⟩ := sample_le ovf img
        (f64div (f64ofInt img.Bounds.Dx) (f64ofInt targetWidth))
        (f64div (f64ofInt img.Bounds.Dy)
          (f64ofInt (targetHeight ovf img.Bounds.Dx img.Bounds.Dy targetWidth))) x y
      have hg := glyph_eq_some ovf useBW _ s1 s2 s3
      have hcell : ((List.range targetWidth.toNat).map (fun x => cellBytes ovf true useBW
          (sample ovf img (f64div (f64ofInt img.Bounds.Dx) (f64ofInt targetWidth))
            (f64div (f64ofInt img.Bounds.Dy)
              (f64ofInt (targetHeight ovf img.Bounds.Dx img.Bounds.Dy targetWidth))) x y))).get? x
          = some (cellBytes ovf true useBW
            (sample ovf img (f64div (f64ofInt img.Bounds.Dx) (f64ofInt targetWidth))
              (f64div (f64ofInt img.Bounds.Dy)
                (f64ofInt (targetHeight ovf img.Bounds.Dx img.Bounds.Dy targetWidth))) x y)) := by
        rw [List.get?_eq_getElem?, List.getElem?_map, List.getElem?_range (by omega)]
        rfl
      rw [hcell]
      simp only [cellBytes, if_true]
      rw [colorCell_shape _ _ _ _ (hprops x).2]
      simp only [sample, srcCoord] at hg ⊢
      exact ⟨_, hg, rfl⟩
  · intro v
    refine ⟨uint8_le _, ?_⟩
    intro hv
    unfold uint8
    rw [Nat.shiftRight_eq_div_pow]
    omega
  · intro n
    rfl

/-- Witness of `C12_color_line`: the white 4x1 image rendered 3 columns wide. -/
theorem C12_color_line_witness :
    (1 ≤ (solidImage 4 1 white).Bounds.Dx ∧ 1 ≤ (solidImage 4 1 white).Bounds.Dy) ∧
    ((∃ lines, toASCII ovfMinInt (solidImage 4 1 white) 3 true false = some lines ∧
      (lines.length : ℤ) = targetHeight ovfMinInt (solidImage 4 1 white).Bounds.Dx (solidImage 4 1 white).Bounds.Dy 3 ∧
      ∀ y : ℕ, (y : ℤ) < targetHeight ovfMinInt (solidImage 4 1 white).Bounds.Dx (solidImage 4 1 white).Bounds.Dy 3 →
        ∃ (line : List UInt8) (cells : List (List UInt8)), lines.get? y = some line ∧
          line = cells.flatten ++ [ESC, 0x5b, 0x30, 0x6d] ∧
          cells.length = (3 : ℤ).toNat ∧
          (∀ pre suf, line = pre ++ [ESC, 0x5b, 0x30, 0x6d] ++ suf → suf = []) ∧
          ∀ x : ℕ, (x : ℤ) < 3 →
            let srcX := f64ToInt ovfMinInt (f64mul (f64ofInt x)
              (f64div (f64ofInt (solidImage 4 1 white).Bounds.Dx) (f64ofInt 3)))
            let srcY := f64ToInt ovfMinInt (f64mul (f64ofInt y)
              (f64div (f64ofInt (solidImage 4 1 white).Bounds.Dy)
                (f64ofInt (targetHeight ovfMinInt (solidImage 4 1 white).Bounds.Dx (solidImage 4 1 white).Bounds.Dy 3))))
            let c := (solidImage 4 1 white).At ((solidImage 4 1 white).Bounds.Min.X + srcX) ((solidImage 4 1 white).Bounds.Min.Y + srcY)
            let R := uint8 (c.r >>> 8)
            let G := uint8 (c.g >>> 8)
            let B := uint8 (c.b >>> 8)
            ∃ ch, glyph ovfMinInt false R G B = some ch ∧
              cells.get? x = some ([ESC, 0x5b, 0x33, 0x38, 0x3b, 0x32, 0x3b] ++ fmtD R
                ++ [0x3b] ++ fmtD G ++ [0x3b] ++ fmtD B ++ [0x6d, ch])) ∧
    (∀ v : ℕ, uint8 (v >>> 8) ≤ 255 ∧ (v ≤ 0xffff → uint8 (v >>> 8) = v >>> 8)) ∧
    (∀ n : ℕ, fmtD n = (Nat.repr n).toList.map Char.toUInt8)) :=
  ⟨by decide, C12_color_line ovfMinInt (solidImage 4 1 white) 3 false (by decide) (by decide)⟩

/-- C13: for every image whose width or height is 0, and every `targetWidth`,
`useColor` and `useBW`, `toASCII` returns exactly the one-element list holding
the line `(empty image)`. -/
theorem C13_empty_image (ovf : ℚ → ℤ) (img : Image) (targetWidth : ℤ) (useColor useBW : Bool)
    (h : img.Bounds.Dx = 0 ∨ img.Bounds.Dy = 0) :
    toASCII ovf img targetWidth useColor useBW = some [emptyImageLine] ∧
      emptyImageLine = "(empty image)".toList.map Char.toUInt8 := by
  constructor
  · unfold toASCII
    simp only []
    rw [if_pos h]
  · decide

/-- Witness of `C13_empty_image`: an image of width 0 and height 5. -/
theorem C13_empty_image_witness :
    ((solidImage 0 5 white).Bounds.Dx = 0 ∨ (solidImage 0 5 white).Bounds.Dy = 0) ∧
    (toASCII ovfMinInt (solidImage 0 5 white) 80 true false = some [emptyImageLine] ∧
      emptyImageLine = "(empty image)".toList.map Char.toUInt8) :=
  ⟨by decide, C13_empty_image ovfMinInt (solidImage 0 5 white) 80 true false (by decide)⟩

/-- C14: sampling coordinates are in bounds.  For every `w ≥ 1` and `h ≥ 1`
(extents of an image, within the range of `int`), every `targetWidth ≤ 2^50`
(a row of `targetWidth` cells is built in memory for every line, which keeps
`targetWidth` far below this bound in every run), `targetHeight` the clamped
height, and all `0 ≤ x < targetWidth`, `0 ≤ y < targetHeight`: the coordinates
`srcX` and `srcY` computed by `toASCII` satisfy `0 ≤ srcX < w` and
`0 ≤ srcY < h`, and so do `floor(x * w / targetWidth)` and
`floor(y * h / targetHeight)` over exact numbers. -/
theorem C14_sampling_in_bounds (ovf : ℚ → ℤ) (w h targetWidth : ℤ) (x y : ℕ)
    (hw : 1 ≤ w) (hw2 : w < 2 ^ 63) (hh : 1 ≤ h) (hh2 : h < 2 ^ 63)
    (htw2 : targetWidth ≤ 2 ^ 50)
    (hx : (x : ℤ) < targetWidth) (hy : (y : ℤ) < targetHeight ovf w h targetWidth) :
    let srcX := f64ToInt ovf (f64mul (f64ofInt x) (f64div (f64ofInt w) (f64ofInt targetWidth)))
    let srcY := f64ToInt ovf (f64mul (f64ofInt y)
      (f64div (f64ofInt h) (f64ofInt (targetHeight ovf w h targetWidth))))
    ((0 ≤ srcX ∧ srcX < w) ∧ (0 ≤ srcY ∧ srcY < h)) ∧
    (0 ≤ specSrcCoord x w targetWidth ∧ specSrcCoord x w targetWidth < w) ∧
    (0 ≤ specSrcCoord y h (targetHeight ovf w h targetWidth) ∧
      specSrcCoord y h (targetHeight ovf w h targetWidth) < h) := by
  have hb := targetHeight_bounds ovf w h targetWidth
  have h1 := srcCoord_bounds ovf x w targetWidth hw hw2 htw2 hx
  have h2 := srcCoord_bounds ovf y h (targetHeight ovf w h targetWidth) hh hh2 (by omega) hy
  unfold srcCoord at h1 h2
  exact ⟨⟨h1, h2⟩, specSrcCoord_bounds x w targetWidth hw hx,
    specSrcCoord_bounds y h (targetHeight ovf w h targetWidth) hh hy⟩

/-- Witness of `C14_sampling_in_bounds`: a 2x3 source at `targetWidth = 98`, cell `(49, 10)`. -/
theorem C14_sampling_in_bounds_witness :
    ((1 : ℤ) ≤ 2 ∧ (2 : ℤ) < 2 ^ 63 ∧ (1 : ℤ) ≤ 3 ∧ (3 : ℤ) < 2 ^ 63 ∧
      (98 : ℤ) ≤ 2 ^ 50 ∧ ((49 : ℕ) : ℤ) < 98 ∧ ((10 : ℕ) : ℤ) < targetHeight ovfMinInt 2 3 98) ∧
    (let srcX := f64ToInt ovfMinInt (f64mul (f64ofInt (49 : ℕ)) (f64div (f64ofInt 2) (f64ofInt 98)))
    let srcY := f64ToInt ovfMinInt (f64mul (f64ofInt (10 : ℕ))
      (f64div (f64ofInt 3) (f64ofInt (targetHeight ovfMinInt 2 3 98))))
    ((0 ≤ srcX ∧ srcX < 2) ∧ (0 ≤ srcY ∧ srcY < 3)) ∧
    (0 ≤ specSrcCoord 49 2 98 ∧ specSrcCoord 49 2 98 < 2) ∧
    (0 ≤ specSrcCoord 10 3 (targetHeight ovfMinInt 2 3 98) ∧
      specSrcCoord 10 3 (targetHeight ovfMinInt 2 3 98) < 3)) :=
  ⟨⟨by decide, by decide, by decide, by decide, by decide, by decide, by decide!⟩,
    C14_sampling_in_bounds ovfMinInt 2 3 98 49 10 (by decide) (by decide) (by decide) (by decide)
      (by decide) (by decide) (by decide!)⟩

/-- C15: for every image with `w ≥ 1` and `h ≥ 1` and every integer
`targetWidth` (zero and negative values included), `toASCII` returns a list of
at least 1 and at most 2000 lines. -/
theorem C15_line_count_clamped (ovf : ℚ → ℤ) (img : Image) (targetWidth : ℤ)
    (useColor useBW : Bool) (hw : 1 ≤ img.Bounds.Dx) (hh : 1 ≤ img.Bounds.Dy) :
    ∃ lines, toASCII ovf img targetWidth useColor useBW = some lines ∧
      1 ≤ lines.length ∧ lines.length ≤ 2000 := by
  refine ⟨_, toASCII_eq_some ovf img targetWidth useColor useBW (by omega) (by omega), ?_⟩
  have hb := targetHeight_bounds ovf img.Bounds.Dx img.Bounds.Dy targetWidth
  rw [List.length_map, List.length_range]
  omega

/-- Witness of `C15_line_count_clamped`: a 4x1 image at `targetWidth = -3`. -/
theorem C15_line_count_clamped_witness :
    (1 ≤ (solidImage 4 1 white).Bounds.Dx ∧ 1 ≤ (solidImage 4 1 white).Bounds.Dy) ∧
    ∃ lines, toASCII ovfMinInt (solidImage 4 1 white) (-3) true false = some lines ∧
      1 ≤ lines.length ∧ lines.length ≤ 2000 :=
  ⟨by decide, C15_line_count_clamped ovfMinInt (solidImage 4 1 white) (-3) true false
    (by decide) (by decide)⟩

/-- C16: with no fps override (`fps <= 0`), for every non-empty list of source
delays (hundredths of a second) and every frame index `i >= 0`, the wait after
frame `i` is `10 * d` milliseconds for the delay `d` at position `i mod len`
when `d` is positive and the default 50 milliseconds otherwise; the delays
`[10, 20, 5]` give 100ms, 200ms, 50ms, repeating cyclically. -/
theorem C16_wait_from_delays (fps : ℤ) (delays : List ℤ) (i : ℕ) (hfps : fps ≤ 0)
    (hne : delays ≠ []) :
    (∃ d, delays.get? (i % delays.length) = some d ∧
      tick fps (frameDurations delays) (i : ℤ)
        = some (if 0 < d then (10 * d) * Millisecond else 50 * Millisecond)) ∧
    (List.range 6).map (fun j : ℕ => tick fps (frameDurations [10, 20, 5]) (j : ℤ))
      = [some (100 * Millisecond), some (200 * Millisecond), some (50 * Millisecond),
         some (100 * Millisecond), some (200 * Millisecond), some (50 * Millisecond)] := by
  have hlen : 0 < delays.length := List.length_pos.mpr hne
  constructor
  · have hlt : i % delays.length < delays.length := Nat.mod_lt _ hlen
    refine ⟨delays.get ⟨i % delays.length, hlt⟩, List.get?_eq_get hlt, ?_⟩
    have hne' : frameDurations delays ≠ [] := by
      rw [frameDurations_eq_map]
      simpa using hne
    rw [tick_no_fps fps _ i hfps hne', frameDurations_eq_map, List.length_map, List.get?_eq_getElem?, List.getElem?_map, ← List.get?_eq_getElem?,
      List.get?_eq_get hlt, Option.map_some', frameDuration_eq]
  · have h3 : ∀ j : ℕ, tick fps (frameDurations [10, 20, 5]) (j : ℤ)
        = (frameDurations [10, 20, 5]).get? (j % 3) := by
      intro j
      exact tick_no_fps fps _ j hfps (by decide)
    simp only [List.range, List.range.loop, List.map, h3]
    decide

/-- Witness of `C16_wait_from_delays`: `fps = 0`, delays `[10, 20, 5]`, frame 4. -/
theorem C16_wait_from_delays_witness :
    ((0 : ℤ) ≤ 0 ∧ ([10, 20, 5] : List ℤ) ≠ []) ∧
    ((∃ d, ([10, 20, 5] : List ℤ).get? (4 % ([10, 20, 5] : List ℤ).length) = some d ∧
      tick 0 (frameDurations [10, 20, 5]) ((4 : ℕ) : ℤ)
        = some (if 0 < d then (10 * d) * Millisecond else 50 * Millisecond)) ∧
    (List.range 6).map (fun j : ℕ => tick 0 (frameDurations [10, 20, 5]) (j : ℤ))
      = [some (100 * Millisecond), some (200 * Millisecond), some (50 * Millisecond),
         some (100 * Millisecond), some (200 * Millisecond), some (50 * Millisecond)]) :=
  ⟨by decide, C16_wait_from_delays 0 [10, 20, 5] 4 (by decide) (by decide)⟩

/-- C17: with a fixed frame rate `fps > 0`, for every frame index and every list
of source delays, the wait after a frame is `time.Second / fps`, that is
`1/fps` seconds in whole nanoseconds (the integer quotient `10^9 / fps`, exact
when `fps` divides `10^9`); it is 100ms for `fps = 10` and does not depend on
the frame index or on the source delays. -/
theorem C17_wait_from_fps (fps : ℤ) (durations durations' : List ℤ) (i j : ℤ) (hfps : 0 < fps) :
    tick fps durations i = tick fps durations' j ∧
    (∃ w, tick fps durations i = some w ∧ w * fps ≤ Second ∧ Second < (w + 1) * fps ∧
      (fps ∣ Second → w * fps = Second)) ∧
    tick 10 durations i = some (100 * Millisecond) := by
  have hs : (0 : ℤ) ≤ Second := by decide
  have he : Int.tdiv Second fps = Second / fps := Int.tdiv_eq_ediv hs (le_of_lt hfps)
  refine ⟨?_, ⟨Int.tdiv Second fps, tick_fps fps durations i hfps, ?_, ?_, ?_⟩, ?_⟩
  · rw [tick_fps fps durations i hfps, tick_fps fps durations' j hfps]
  · rw [he]
    exact Int.ediv_mul_le _ (ne_of_gt hfps)
  · rw [he]
    exact Int.lt_ediv_add_one_mul_self _ hfps
  · intro hdvd
    rw [he]
    exact Int.ediv_mul_cancel hdvd
  · rw [tick_fps 10 durations i (by decide)]
    rfl

/-- Witness of `C17_wait_from_fps`: `fps = 10` with the delays `[10, 20, 5]`. -/
theorem C17_wait_from_fps_witness :
    (0 : ℤ) < 10 ∧
    (tick 10 [100000000, 200000000, 50000000] 0 = tick 10 [] 7 ∧
    (∃ w, tick 10 [100000000, 200000000, 50000000] 0 = some w ∧ w * 10 ≤ Second ∧
      Second < (w + 1) * 10 ∧ ((10 : ℤ) ∣ Second → w * 10 = Second)) ∧
    tick 10 [100000000, 200000000, 50000000] 0 = some (100 * Millisecond)) :=
  ⟨by decide, C17_wait_from_fps 10 [100000000, 200000000, 50000000] [] 0 7 (by decide)⟩

/-- C18: with `n >= 1` pre-rendered frames (and a wait defined for every frame):
when the loop flag is false, the display loop shows frames `0, 1, ..., n-1` in
that order, each once, and leaves the loop at the end of iteration `n`, not
before, and nothing happens afterwards; when the loop flag is true, the frame
shown at iteration `i` is frame `i mod n` and the loop is never left. -/
theorem C18_animation_loop (fps : ℤ) (durations : List ℤ) (n : ℕ)
    (hn : 1 ≤ n) (hd : 0 < fps ∨ durations ≠ []) :
    ((animRun fps durations n false n).shown = (List.range n).map (fun j : ℕ => (j : ℤ)) ∧
      (animRun fps durations n false n).exited = true ∧
      (animRun fps durations n false n).panicked = false ∧
      (∀ k < n, (animRun fps durations n false k).exited = false) ∧
      (∀ k, n ≤ k → animRun fps durations n false k = animRun fps durations n false n)) ∧
    (∀ k, (animRun fps durations n true k).exited = false ∧
      (animRun fps durations n true k).panicked = false ∧
      (animRun fps durations n true k).shown
        = (List.range k).map (fun j : ℕ => ((j % n : ℕ) : ℤ))) := by
  constructor
  · obtain ⟨-, h2, -, h4, h5⟩ := animRun_running fps durations n false hn hd n (Or.inr le_rfl)
    have hex : (animRun fps durations n false n).exited = true := by
      rw [h5]
      simp
    refine ⟨?_, hex, h4, ?_, ?_⟩
    · rw [h2]
      apply List.map_congr_left
      intro j hj
      rw [Nat.mod_eq_of_lt (List.mem_range.mp hj)]
    · intro k hk
      obtain ⟨-, -, -, -, h⟩ := animRun_running fps durations n false hn hd k (Or.inr (by omega))
      rw [h]
      have : ¬ n ≤ k := by omega
      simp [this]
    · intro k hk
      obtain ⟨m, rfl⟩ := Nat.exists_eq_add_of_le hk
      exact animRun_exited fps durations n false n m hex
  · intro k
    obtain ⟨-, h2, -, h4, h5⟩ := animRun_running fps durations n true hn hd k (Or.inl rfl)
    refine ⟨?_, h4, h2⟩
    rw [h5]
    rfl

/-- Witness of `C18_animation_loop`: three frames with the delays `[10, 20, 5]`. -/
theorem C18_animation_loop_witness :
    ((1 : ℕ) ≤ 3 ∧ ((0 : ℤ) < 0 ∨ frameDurations [10, 20, 5] ≠ [])) ∧
    (((animRun 0 (frameDurations [10, 20, 5]) 3 false 3).shown
        = (List.range 3).map (fun j : ℕ => (j : ℤ)) ∧
      (animRun 0 (frameDurations [10, 20, 5]) 3 false 3).exited = true ∧
      (animRun 0 (frameDurations [10, 20, 5]) 3 false 3).panicked = false ∧
      (∀ k < 3, (animRun 0 (frameDurations [10, 20, 5]) 3 false k).exited = false) ∧
      (∀ k, 3 ≤ k → animRun 0 (frameDurations [10, 20, 5]) 3 false k
        = animRun 0 (frameDurations [10, 20, 5]) 3 false 3)) ∧
    (∀ k, (animRun 0 (frameDurations [10, 20, 5]) 3 true k).exited = false ∧
      (animRun 0 (frameDurations [10, 20, 5]) 3 true k).panicked = false ∧
      (animRun 0 (frameDurations [10, 20, 5]) 3 true k).shown
        = (List.range k).map (fun j : ℕ => ((j % 3 : ℕ) : ℤ)))) :=
  ⟨⟨by decide, Or.inr (by decide)⟩,
    C18_animation_loop 0 (frameDurations [10, 20, 5]) 3 (by decide) (Or.inr (by decide))⟩

/-- C19: the ramp lookup never goes out of range: for every pixel with 8-bit
channels the index `int((gray / 255) * 9)` computed in grayscale-ramp mode is
the floor of the scaled luminance, lies in `0..9`, and indexing the
10-character ramp with it succeeds. -/
theorem C19_ramp_index_in_range (ovf : ℚ → ℤ) (r g b : ℕ)
    (hr : r ≤ 255) (hg : g ≤ 255) (hb : b ≤ 255) :
    rampIndex ovf (gray r g b) = ⌊f64mul (f64div (gray r g b) 255) 9⌋ ∧
      0 ≤ rampIndex ovf (gray r g b) ∧ rampIndex ovf (gray r g b) ≤ 9 ∧
      grayRamp.length = 10 ∧
      ∃ ch, byteAt grayRamp (rampIndex ovf (gray r g b)) = some ch ∧
        glyph ovf false r g b = some ch := by
  obtain ⟨he, h0, h9⟩ := rampIndex_spec ovf (gray_nonneg r g b) (gray_le_255 hr hg hb)
  rw [f64ofInt_nine] at he
  refine ⟨he, h0, h9, rfl, glyphD ovf false (r, g, b), ?_, ?_⟩
  · have := glyph_eq_some ovf false (r, g, b) hr hg hb
    unfold glyph glyphOfGray at this
    simpa using this
  · exact glyph_eq_some ovf false (r, g, b) hr hg hb

/-- Witness of `C19_ramp_index_in_range`: the pixel `(6, 140, 9)`. -/
theorem C19_ramp_index_in_range_witness :
    ((6 : ℕ) ≤ 255 ∧ (140 : ℕ) ≤ 255 ∧ (9 : ℕ) ≤ 255) ∧
    (rampIndex ovfMinInt (gray 6 140 9) = ⌊f64mul (f64div (gray 6 140 9) 255) 9⌋ ∧
      0 ≤ rampIndex ovfMinInt (gray 6 140 9) ∧ rampIndex ovfMinInt (gray 6 140 9) ≤ 9 ∧
      grayRamp.length = 10 ∧
      ∃ ch, byteAt grayRamp (rampIndex ovfMinInt (gray 6 140 9)) = some ch ∧
        glyph ovfMinInt false 6 140 9 = some ch) :=
  ⟨by decide, C19_ramp_index_in_range ovfMinInt 6 140 9 (by decide) (by decide) (by decide)⟩

/-- C20: for every byte string `s`, `stripANSI s` is a subsequence of `s` (so it
is never longer than `s`) and contains no ESC byte; and when `s` contains an
ESC byte after which no ASCII letter occurs, everything from that ESC byte to
the end of `s` is dropped from the output. -/
theorem C20_stripANSI_subsequence (s : List UInt8) :
    (stripANSI s).Sublist s ∧ (stripANSI s).length ≤ s.length ∧ ESC ∉ stripANSI s ∧
      ∀ pre suf : List UInt8, s = pre ++ ESC :: suf → (∀ c ∈ suf, isLetter c = false) →
        stripANSI s = stripANSI pre := by
  rw [stripANSI_eq_stripFrom]
  refine ⟨stripFrom_sublist false s, (stripFrom_sublist false s).length_le,
    stripFrom_no_esc false s, ?_⟩
  intro pre suf hs hsuf
  rw [hs, stripANSI_eq_stripFrom]
  exact stripFrom_append_esc false pre suf hsuf

/-- Witness of `C20_stripANSI_subsequence`: the string `"A" ESC "[0"`, whose
escape sequence is not terminated. -/
theorem C20_stripANSI_subsequence_witness :
    (([0x41, ESC, 0x5b, 0x30] : List UInt8) = [0x41] ++ ESC :: [0x5b, 0x30] ∧
      ∀ c ∈ ([0x5b, 0x30] : List UInt8), isLetter c = false) ∧
    stripANSI [0x41, ESC, 0x5b, 0x30] = stripANSI [0x41] :=
  ⟨⟨rfl, by decide⟩,
    (C20_stripANSI_subsequence [0x41, ESC, 0x5b, 0x30]).2.2.2 [0x41] [0x5b, 0x30] rfl
      (by decide)⟩

end AsciiCli
